import Mathlib

/-!
Verification of the filemapper repository against its specification.

The development shallowly embeds, from the C sources:
  * the compression-VFS page shim (src/compdb.c, src/compdbvfs.c): the
    database sniffer, the read path and the write path, over an explicit
    byte-addressed file model;
  * the offline shrinker sniffer (src/shrinkmapper.c);
  * the compressor registry (src/compress.c) and the control-flow skeleton
    of its GZIP decompress wrapper;
  * the XFS extent coalescer and inode walk (src/xfsmapper.c);
  * the range-coded per-AG bitmap (src/xfsmapper.c update_bmap and friends)
    as an ordered association list;
  * the database finalization step (src/e2mapper.c finalize_fs_stats).

Machine integers are modelled as Nat with explicit reductions mod 2^16,
2^32 or 2^64 exactly where the C arithmetic truncates.
-/

/-! ## Byte-order helpers (ntohs / ntohl / htons / htonl) -/

/-- Decode two big-endian bytes (ntohs on a byte pair). -/
def be16 (a b : Nat) : Nat := a * 256 + b

/-- Decode four big-endian bytes (ntohl on four bytes). -/
def be32 (a b c d : Nat) : Nat := ((a * 256 + b) * 256 + c) * 256 + d

/-- Encode a 16-bit value big-endian (htons); truncates mod 2^16. -/
def enc16 (n : Nat) : List Nat := [n / 256 % 256, n % 256]

/-- Encode a 32-bit value big-endian (htonl); truncates mod 2^32. -/
def enc32 (n : Nat) : List Nat :=
  [n / 2 ^ 24 % 256, n / 2 ^ 16 % 256, n / 2 ^ 8 % 256, n % 256]

/-- Byte at index `i` of a buffer (0 beyond the end). -/
def byteAt (b : List Nat) (i : Nat) : Nat := b.getD i 0

/-- Big-endian 16-bit field at byte offset `i` of a buffer. -/
def be16At (b : List Nat) (i : Nat) : Nat := be16 (byteAt b i) (byteAt b (i + 1))

/-- Big-endian 32-bit field at byte offset `i` of a buffer. -/
def be32At (b : List Nat) (i : Nat) : Nat :=
  be32 (byteAt b i) (byteAt b (i + 1)) (byteAt b (i + 2)) (byteAt b (i + 3))

/-! ## Byte-addressed file model

A file is a size plus a total byte function; bytes at or beyond `size` are
kept at zero by all operations, matching POSIX pread/pwrite/ftruncate holes. -/

structure FileM where
  size : Nat
  data : Nat → Nat

/-- The empty file. -/
def FileM.empty : FileM := ⟨0, fun _ => 0⟩

/-- pwrite: overlay `d` at offset `off`; a hole between the old end and
`off` reads back as zeros. -/
def writeBytes (f : FileM) (off : Nat) (d : List Nat) : FileM :=
  { size := max f.size (off + d.length)
    data := fun i =>
      if off ≤ i ∧ i < off + d.length then d.getD (i - off) 0
      else if i < f.size then f.data i else 0 }

/-- ftruncate: set the size; an extension reads back as zeros. -/
def truncateTo (f : FileM) (n : Nat) : FileM :=
  { size := n, data := fun i => if i < n then f.data i else 0 }

/-- The `amt` bytes of `f` starting at `off` (no bounds check; callers
check `off + amt ≤ size` first, as the underlying VFS read does). -/
def readSlice (f : FileM) (off amt : Nat) : List Nat :=
  (List.range amt).map (fun i => f.data (off + i))

/-! ## Compression-VFS shim (src/compdb.c)

`compdb_read`, `compdb_write` and `compdb_sniff` are translated from
src/compdb.c; src/compdbvfs.c contains a byte-for-byte identical copy of
all three routines (modulo struct names), so this embedding covers both. -/

inductive SqliteErr where
  | shortRead
  | corrupt
  | notadb
  | nomem
deriving DecidableEq, Repr

inductive DbType where
  | unknown
  | regular
  | compressed
deriving DecidableEq, Repr

/-- Per-file shim state (struct compdb_file: db_type, pagesize, data_start). -/
structure CompdbFile where
  dbType : DbType
  pagesize : Nat
  dataStart : Nat
deriving DecidableEq, Repr

/-- A compressor handle: `compress src dstCap` returns the compressed bytes,
`[]` meaning the C return value 0 (incompressible / compressor failure);
`decompress src dstCap` returns `none` for a negative C return (corrupt). -/
structure Codec where
  header : List Nat
  compress : List Nat → Nat → List Nat
  decompress : List Nat → Nat → Option (List Nat)

/-- "SQLite format 3" plus its terminating NUL: the canonical 16-byte header. -/
def sqliteFileHeader : List Nat :=
  [83, 81, 76, 105, 116, 101, 32, 102, 111, 114, 109, 97, 116, 32, 51, 0]

/-- "SQLite GZIP v.3" plus NUL: the compdb custom header for the GZIP codec. -/
def gzipFileHeader : List Nat :=
  [83, 81, 76, 105, 116, 101, 32, 71, 90, 73, 80, 32, 118, 46, 51, 0]

/-- The compressed-page magic {0xDA, 0xAD}. -/
def blockMagic : List Nat := [0xDA, 0xAD]

/-- `ff->pagesize - sizeof(struct compdb_block_head)` as the C computes it:
int minus size_t is carried out in size_t, i.e. mod 2^64. -/
def psMinusHead (ps : Nat) : Nat := (ps + 2 ^ 64 - 8) % 2 ^ 64

/-- compdb_sniff (src/compdb.c:205): classify a superblock buffer.
`hdr` is the stacked codec's COMPDB_FILE_HEADER. -/
def compdb_sniff (hdr : List Nat) (ff : CompdbFile) (super : List Nat)
    (isWrite : Bool) : Except SqliteErr CompdbFile :=
  let isSqlite := super.take 16 = sqliteFileHeader
  let isCompr := super.take 16 = hdr
  if (¬ isSqlite ∧ ¬ isCompr) ∨ byteAt super 21 ≠ 64 ∨ byteAt super 22 ≠ 32 ∨
      byteAt super 23 ≠ 32 ∨ be32At super 44 > 4 then
    .error .notadb
  else if isSqlite ∧ isWrite = false then
    .ok { ff with dbType := .regular }
  else
    let ps0 := be16At super 16
    let ps := if ps0 = 1 then 65536 else ps0
    -- (ntohl(freelist_start) + 1 + ntohl(freelist_pages)) * ff->pagesize is
    -- unsigned-int arithmetic: both the sum and the product wrap mod 2^32.
    let ds := ((be32At super 32 + 1 + be32At super 36) % 2 ^ 32 * ps) % 2 ^ 32
    .ok { ff with dbType := .compressed, pagesize := ps, dataStart := ds }

/-- compdb_read (src/compdb.c:251). `amt`/`off` are iAmt/iOfst; the in-place
memcpy/memset of the decompressed page models the C for `amt ≥ pagesize`,
which is how the engine calls it (full-page reads). -/
def compdb_read (c : Codec) (ff : CompdbFile) (f : FileM) (amt off : Nat) :
    Except SqliteErr (List Nat) :=
  if off + amt ≤ f.size then
    let raw0 := readSlice f off amt
    let raw := if ff.dbType = .compressed ∧ off = 0 then
        sqliteFileHeader ++ raw0.drop 16
      else raw0
    if ff.dbType = .regular ∨ off + amt ≤ ff.dataStart ∨
        raw.take 2 ≠ blockMagic then
      .ok raw
    else
      let clen := be16At raw 2
      -- ntohl(bhead->offset) * ff->pagesize is uint32 * int: the product is
      -- computed in unsigned int, i.e. mod 2^32, before the int64 compare.
      if clen > psMinusHead ff.pagesize ∨
          be32At raw 4 * ff.pagesize % 2 ^ 32 ≠ off then
        .error .corrupt
      else
        match c.decompress ((raw.drop 8).take clen) ff.pagesize with
        | none => .error .corrupt
        | some out =>
            .ok (out ++ List.replicate (ff.pagesize - out.length) 0 ++
                 raw.drop ff.pagesize)
  else .error .shortRead

/-- The `no_compr` tail of compdb_write (src/compdb.c:380): write the buffer
through unchanged; a pass-through write at offset 0 of a compressed file is
followed by rewriting the 16 header bytes with the codec's custom header. -/
def compdb_write_nocompr (c : Codec) (ff : CompdbFile) (f : FileM)
    (d : List Nat) (off : Nat) : CompdbFile × FileM :=
  let f1 := writeBytes f off d
  if off ≠ 0 ∨ ff.dbType = .regular then (ff, f1)
  else (ff, writeBytes f1 0 c.header)

/-- compdb_write (src/compdb.c:312). The underlying VFS write never fails in
this in-memory model, and malloc never fails, so the IO-error and NOMEM
branches are not reachable here. -/
def compdb_write (c : Codec) (ff : CompdbFile) (f : FileM) (d : List Nat)
    (off : Nat) : Except SqliteErr (CompdbFile × FileM) :=
  match (if ff.dbType = .unknown then compdb_sniff c.header ff d true
         else .ok ff) with
  | .error e => .error e
  | .ok ff1 =>
    if ff1.dbType = .regular ∨ off + d.length ≤ ff1.dataStart then
      .ok (compdb_write_nocompr c ff1 f d off)
    else
      let comp := c.compress d (psMinusHead ff1.pagesize)
      if comp = [] then
        .ok (compdb_write_nocompr c ff1 f d off)
      else
        -- 8-byte framing: magic, htons(compressed length), htonl(page no).
        let frame := blockMagic ++ enc16 comp.length ++
                     enc32 (off / ff1.pagesize % 2 ^ 32) ++ comp
        let f1 := writeBytes f off frame
        let f2 := if off + d.length > f1.size then truncateTo f1 (off + d.length)
                  else f1
        .ok (ff1, f2)

/-- Modelled from the spec: the write-path truncation discipline of spec
§4.8 step 4 ("truncate the underlying file to offset + compressed_total
*before* the write, issue the compressed write, then truncate *up* to
offset + page_size").  This definition follows the specification's words;
it exists to be compared with `compdb_write`, which is translated from the
source. -/
def specShimWriteDiscipline (f : FileM) (off : Nat) (frame : List Nat)
    (pagesize : Nat) : FileM :=
  let f1 := truncateTo f (off + frame.length)
  let f2 := writeBytes f1 off frame
  if off + pagesize > f2.size then truncateTo f2 (off + pagesize) else f2

/-- Size of a successful write result (error results map to 0). -/
def writeResultSize (r : Except SqliteErr (CompdbFile × FileM)) : Nat :=
  match r with
  | .ok (_, f) => f.size
  | .error _ => 0

/-- sniff (src/shrinkmapper.c:35): the shrinker's copy of the sniffer.
Returns `none` for the EUCLEAN rejection, otherwise the filled-in
(type, pagesize, datastart) triple of struct compdb_info. -/
def shrink_sniff (inFileHeader : List Nat) (super : List Nat) :
    Option (DbType × Nat × Nat) :=
  let isSqlite := super.take 16 = sqliteFileHeader
  let isCompr := super.take 16 = inFileHeader
  if (¬ isSqlite ∧ ¬ isCompr) ∨ byteAt super 21 ≠ 64 ∨ byteAt super 22 ≠ 32 ∨
      byteAt super 23 ≠ 32 ∨ be32At super 44 > 4 then
    none
  else
    let ty := if isSqlite then DbType.regular else DbType.compressed
    let ps0 := be16At super 16
    let ps := if ps0 = 1 then 65536 else ps0
    let ds := ((be32At super 32 + 1 + be32At super 36) % 2 ^ 32 * ps) % 2 ^ 32
    some (ty, ps, ds)

/-! ## Compressor registry (src/compress.c) -/

/-- The names of the registry entries, in table order (src/compress.c:245). -/
def compressors : List String := ["GZIP", "LZ4D", "LZ4H", "LZMA", "BZ2A"]

/-- compdb_find_compressor (src/compress.c:280): a NULL name selects the
first table entry; otherwise the first name-match; NULL if none matches.
The handle is modelled as the registry index. -/
def compdb_find_compressor (name : Option String) : Option Nat :=
  match name with
  | none => some 0
  | some n => compressors.findIdx? (fun s => s = n)

/-! ## GZIP_decompress control-flow skeleton (src/compress.c:194)

zlib itself is an external collaborator; it is modelled as an oracle that
prescribes, for each successive inflate call, the return code, the
remaining `avail_in` and the output position `next_out - dest` after the
call.  The wrapper's own return-value logic is translated verbatim:
`inflateInit` failure returns -1; an inflate return code other than Z_OK
(0) or Z_STREAM_END (1) returns 0; leftover input after the loop returns
-1; otherwise the bytes produced. -/

structure ZlibStep where
  ret : Int
  availIn : Nat
  outPos : Nat
deriving DecidableEq, Repr

/-- The do/while loop of GZIP_decompress, one `ZlibStep` per inflate call. -/
def gzipInflateLoop (maxOut : Nat) : List ZlibStep → Int
  | [] => -1
  | s :: rest =>
      if s.ret ≠ 1 ∧ s.ret ≠ 0 then 0
      else if s.availIn ≠ 0 ∧ s.outPos ≤ maxOut then
        match rest with
        | [] => if s.availIn ≠ 0 then -1 else (s.outPos : Int)
        | _ => gzipInflateLoop maxOut rest
      else if s.availIn ≠ 0 then -1 else (s.outPos : Int)

/-- GZIP_decompress (src/compress.c:194) with zlib as an oracle:
`initRet` is the inflateInit result; `steps` the successive inflate
outcomes (at least one: the loop body runs before the condition). -/
def GZIP_decompress_model (initRet : Int) (steps : List ZlibStep)
    (maxOut : Nat) : Int :=
  if initRet ≠ 0 then -1
  else gzipInflateLoop maxOut steps

/-! ## XFS extent coalescer (src/xfsmapper.c) -/

/-- struct xfs_extent_t (src/xfsmapper.c:21). `state` is the xfs_exntst_t
value (XFS_EXT_NORM = 0, XFS_EXT_UNWRITTEN = 1). -/
structure XfsExtent where
  p_off : Nat
  l_off : Nat
  len : Nat
  state : Nat
  unaligned : Bool
  inlinedata : Bool
  extentmap : Bool
deriving DecidableEq, Repr

/-- MAX_EXTENT_LENGTH (src/filemapper.h:76). -/
def MAX_EXTENT_LENGTH : Nat := 2 ^ 60

/-- The empty tail: WALK_FORK starts each fork with `last->len = 0`. -/
def emptyTail : XfsExtent := ⟨0, 0, 0, 0, false, false, false⟩

/-- walk_extent_helper (src/xfsmapper.c:654): returns the new tail and the
list of extents flushed to the sink (empty when `ext` merged into the
tail).  All unsigned-long-long additions wrap mod 2^64. -/
def walk_extent_helper (last ext : XfsExtent) : XfsExtent × List XfsExtent :=
  if last.len ≠ 0 then
    if (last.p_off + last.len) % 2 ^ 64 = ext.p_off ∧
        (last.l_off + last.len) % 2 ^ 64 = ext.l_off ∧
        last.state = ext.state ∧
        (last.len + ext.len) % 2 ^ 64 ≤ MAX_EXTENT_LENGTH then
      ({ last with len := (last.len + ext.len) % 2 ^ 64 }, [])
    else (ext, [last])
  else (ext, [])

/-- Feed a raw extent stream through walk_extent_helper, collecting the
flushed extents in order; returns the final tail as well. -/
def runCoalesce (exts : List XfsExtent) : XfsExtent × List XfsExtent :=
  exts.foldl (fun acc e =>
    let r := walk_extent_helper acc.1 e
    (r.1, acc.2 ++ r.2)) (emptyTail, [])

/-- A whole fork walk as WALK_FORK performs it: coalesce, then flush the
final non-empty tail. -/
def coalesceOutput (exts : List XfsExtent) : List XfsExtent :=
  let r := runCoalesce exts
  if r.1.len ≠ 0 then r.2 ++ [r.1] else r.2

/-! ## XFS inode walk (src/xfsmapper.c walk_file_mappings) -/

/-- A row of extent_t as insert_extent receives it. -/
structure ExtRecord where
  ino : Int
  p_off : Nat
  l_off : Option Nat
  len : Nat
  flags : Nat
  etype : Nat
deriving DecidableEq, Repr

/-- extent_codes (src/xfsmapper.c:65): designated-initializer array; the
directory-entry type codes are the libxfs values XFS_DIR3_FT_REG_FILE = 1,
XFS_DIR3_FT_DIR = 2, XFS_DIR3_FT_SYMLINK = 7, and the private extensions
XT_METADATA = 25, XT_EXTENT = 26, XT_XATTR = 27 (XFS_DIR3_FT_MAX = 9 plus
16..18); unnamed entries of the C array are zero. -/
def extent_codes (t : Nat) : Nat :=
  if t = 1 then 0
  else if t = 2 then 1
  else if t = 7 then 5
  else if t = 25 then 3
  else if t = 26 then 2
  else if t = 27 then 4
  else if t = 28 then 0
  else 0

/-- insert_xfs_extent (src/xfsmapper.c:606) as a record constructor:
EXTENT_DATA_INLINE = 0x200, EXTENT_NOT_ALIGNED = 0x100,
EXTENT_UNWRITTEN = 0x800; XFS_EXT_UNWRITTEN = 1; EXT_TYPE_EXTENT = 2. -/
def insert_xfs_extent (ino : Int) (itype : Nat) (x : XfsExtent) : ExtRecord :=
  let flags := (if x.inlinedata then 0x200 else 0) +
               (if x.unaligned then 0x100 else 0) +
               (if x.state = 1 then 0x800 else 0)
  let ty := if x.extentmap then 2 else extent_codes itype
  ⟨ino, x.p_off, some x.l_off, x.len, flags, ty⟩

/-- walk_file_mappings (src/xfsmapper.c:802): `seen` is the inode's bit in
the per-AG seen bitmap; `inoLoc` is inode_poff(ip); `inodeSize` is
sb_inodesize; the two fork walks are given as their raw extent streams.
Returns the inserted records in order and the inode's bit afterwards.
EXT_TYPE_METADATA = 3; the attr fork uses itype XFS_DIR3_XT_XATTR = 27. -/
def xfs_walk_file_mappings (seen : Bool) (ino : Int) (inoLoc inodeSize : Nat)
    (ftype : Nat) (dataFork attrFork : List XfsExtent) :
    List ExtRecord × Bool :=
  if seen then ([], true)
  else
    (ExtRecord.mk ino inoLoc none inodeSize 0 3 ::
       ((coalesceOutput dataFork).map (insert_xfs_extent ino ftype) ++
        (coalesceOutput attrFork).map (insert_xfs_extent ino 27)),
     true)

/-! ## Range-coded per-AG bitmap (src/xfsmapper.c:937 update_bmap)

The ordered key-to-tag map (xfs_repair's btree of offset to state pointer)
is modelled as an association list sorted by key.  Tags are the indices
into big_bmap_states: BBMAP_UNUSED = 0, BBMAP_INUSE = 1, BBMAP_BAD = 2;
pointer identity of `int *` states is index equality. -/

abbrev Bmap := List (Nat × Nat)

/-- btree_find: the entry with the exact key or the next highest key. -/
def btree_find (m : Bmap) (k : Nat) : Option (Nat × Nat) :=
  match m with
  | [] => none
  | p :: t => if k ≤ p.1 then some p else btree_find t k

/-- btree_peek_prev relative to a cursor at key `c`: the last entry whose
key is strictly below `c`. -/
def btree_peek_prev (m : Bmap) (c : Nat) : Option (Nat × Nat) :=
  match m with
  | [] => none
  | p :: t =>
      if p.1 < c then
        match btree_peek_prev t c with
        | none => some p
        | some q => some q
      else none

/-- btree_peek_next relative to a cursor at key `c`: the first entry whose
key is strictly above `c`. -/
def btree_peek_next (m : Bmap) (c : Nat) : Option (Nat × Nat) :=
  match m with
  | [] => none
  | p :: t => if p.1 ≤ c then btree_peek_next t c else some p

/-- btree_insert: sorted insertion of a fresh key. -/
def btree_insert (m : Bmap) (k v : Nat) : Bmap :=
  match m with
  | [] => [(k, v)]
  | p :: t => if k < p.1 then (k, v) :: p :: t else p :: btree_insert t k v

/-- btree_delete: remove the entry with key `k`. -/
def btree_delete (m : Bmap) (k : Nat) : Bmap :=
  match m with
  | [] => []
  | p :: t => if p.1 = k then t else p :: btree_delete t k

/-- btree_update_value: replace the value stored at key `k`. -/
def btree_update_value (m : Bmap) (k v : Nat) : Bmap :=
  m.map (fun p => if p.1 = k then (k, v) else p)

/-- btree_update_key: rename key `kold` to `knew`, keeping its value. -/
def btree_update_key (m : Bmap) (kold knew : Nat) : Bmap :=
  m.map (fun p => if p.1 = kold then (knew, p.2) else p)

/-- update_bmap (src/xfsmapper.c:937): the nine-case range update.  The two
`none` fallbacks return the map unchanged: in the C they correspond to a
failed btree_find (explicit early return), to reading an uninitialized
next_key after btree_peek_next returns NULL, and to the ASSERT that
prev_state is non-NULL. -/
def update_bmap (m : Bmap) (offset blen : Nat) (newState : Nat) : Bmap :=
  let endk := offset + blen
  match btree_find m offset with
  | none => m
  | some (curKey, curState) =>
    if offset = curKey then
      if curState = newState then m
      else
        let prevState := (btree_peek_prev m curKey).map Prod.snd
        match btree_peek_next m curKey with
        | none => m
        | some (nextKey, nextState) =>
          if nextKey > endk then
            if some newState = prevState then
              btree_update_key m offset endk
            else
              btree_insert (btree_update_value m offset newState) endk curState
          else
            if newState = nextState then
              if some newState = prevState then
                btree_delete (btree_delete m offset) endk
              else
                btree_delete (btree_update_value m offset newState) endk
            else
              if some newState = prevState then btree_delete m offset
              else btree_update_value m offset newState
    else
      match btree_peek_prev m curKey with
      | none => m
      | some (_, prevState) =>
        if prevState = newState then m
        else if endk = curKey then
          if newState = curState then btree_update_key m endk offset
          else btree_insert m offset newState
        else
          btree_insert (btree_insert m offset newState) endk prevState

/-- One group's map as big_bmap_init (src/xfsmapper.c:1067) builds it:
sentinels {0 → BBMAP_UNUSED, size*multiplier → BBMAP_BAD}; `bound` stands
for ag_size * multiplier. -/
def bmap_new (bound : Nat) : Bmap :=
  btree_insert (btree_insert [] 0 0) bound 2

/-- big_bmap_set (src/xfsmapper.c:1148) on one group's map. -/
def big_bmap_set (m : Bmap) (offset blen : Nat) (state : Nat) : Bmap :=
  update_bmap m offset blen state

/-- big_bmap_test (src/xfsmapper.c:1162) on one group's map: whether the
interval covering `offset` carries BBMAP_INUSE. -/
def big_bmap_test (m : Bmap) (offset : Nat) : Bool :=
  match btree_find m offset with
  | none => false
  | some (ck, cv) =>
    if offset = ck then cv == 1
    else
      match btree_peek_prev m ck with
      | none => false
      | some q => q.2 == 1

/-- The tag of the interval covering `k`: the value at the greatest key not
exceeding `k` (0 if the map has no such key). -/
def coveringTag (m : Bmap) (k : Nat) : Nat :=
  match btree_peek_prev m (k + 1) with
  | none => 0
  | some q => q.2

/-- The structural invariant of one group's map, `bound` being
ag_size * multiplier: keys strictly ascending, no two consecutive entries
with the same tag, key 0 present (first), and the out-of-range sentinel
(bound, BBMAP_BAD) present last - hence the unique key at or above
`bound`. -/
def bmapInv (m : Bmap) (bound : Nat) : Prop :=
  m.Chain' (fun p q => p.1 < q.1) ∧
  m.Chain' (fun p q => p.2 ≠ q.2) ∧
  (m.head?.map Prod.fst = some 0) ∧
  m.getLast? = some (bound, 2)

/-- A set request that stays inside a single interval of the map: the
updated range `[offset, offset+blen)` must not run past the next key
strictly beyond `offset`'s covering interval. -/
def setWithinInterval (m : Bmap) (offset blen : Nat) : Bool :=
  0 < blen &&
  match btree_find m offset with
  | none => false
  | some (ck, _) =>
    if offset = ck then
      match btree_peek_next m ck with
      | none => false
      | some (nk, _) => offset + blen ≤ nk
    else offset + blen ≤ ck

/-! ## Database finalization (src/e2mapper.c:274 finalize_fs_stats) -/

/-- The fs_t row fields touched by the claim (path key, recorded total
bytes, finished flag). -/
structure FsRow where
  path : Nat
  total_bytes : Nat
  finished : Bool
deriving DecidableEq, Repr

/-- An extent_t row reduced to its p_end column. -/
structure ExtRow where
  ino : Int
  p_end : Nat
deriving DecidableEq, Repr

/-- The database state the claim speaks about. -/
structure MapDb where
  fs : List FsRow
  extents : List ExtRow
deriving DecidableEq, Repr

/-- finalize_fs_stats (src/e2mapper.c:274): UPDATE fs_t SET finished = 1
WHERE path = ?; nothing else is read or written. -/
def finalize_fs_stats (db : MapDb) (p : Nat) : MapDb :=
  { db with fs := db.fs.map (fun r => if r.path = p then { r with finished := true } else r) }

/-- MAX(extent_t.p_end) over the extent table (0 when empty). -/
def maxPEnd (db : MapDb) : Nat :=
  db.extents.foldl (fun acc r => max acc r.p_end) 0

/-! ## Helper lemmas about the file model -/

theorem readSlice_length (f : FileM) (off amt : Nat) :
    (readSlice f off amt).length = amt := by
  simp [readSlice]

theorem readSlice_succ (f : FileM) (off k : Nat) :
    readSlice f off (k + 1) = f.data off :: readSlice f (off + 1) k := by
  simp only [readSlice, List.range_succ_eq_map, List.map_cons, List.map_map,
    Nat.add_zero]
  refine congrArg _ ?_
  apply List.map_congr_left
  intro i _
  simp only [Function.comp_apply, Nat.succ_eq_add_one]
  exact congrArg f.data (by omega)

theorem readSlice_split (f : FileM) (off a b : Nat) :
    readSlice f off (a + b) = readSlice f off a ++ readSlice f (off + a) b := by
  simp only [readSlice, List.range_add, List.map_append, List.map_map]
  refine congrArg _ ?_
  apply List.map_congr_left
  intro i _
  simp only [Function.comp_apply]
  exact congrArg f.data (by omega)

theorem readSlice_congr {f g : FileM} {off amt : Nat}
    (h : ∀ i, i < amt → f.data (off + i) = g.data (off + i)) :
    readSlice f off amt = readSlice g off amt := by
  simp only [readSlice]
  apply List.map_congr_left
  intro i hi
  exact h i (List.mem_range.mp hi)

theorem byteAt_readSlice (f : FileM) (off amt i : Nat) (h : i < amt) :
    byteAt (readSlice f off amt) i = f.data (off + i) := by
  simp [byteAt, readSlice, List.getD_eq_getElem?_getD, List.getElem?_map,
    List.getElem?_range h]

theorem writeBytes_size (f : FileM) (off : Nat) (d : List Nat) :
    (writeBytes f off d).size = max f.size (off + d.length) := rfl

theorem writeBytes_data_in (f : FileM) (off : Nat) (d : List Nat) (i : Nat)
    (h1 : off ≤ i) (h2 : i < off + d.length) :
    (writeBytes f off d).data i = d.getD (i - off) 0 := by
  simp [writeBytes, h1, h2]

theorem writeBytes_data_out (f : FileM) (off : Nat) (d : List Nat) (i : Nat)
    (h : ¬ (off ≤ i ∧ i < off + d.length)) :
    (writeBytes f off d).data i = if i < f.size then f.data i else 0 := by
  simp only [writeBytes, if_neg h]

theorem readSlice_writeBytes_seg (f : FileM) (off : Nat) (d : List Nat)
    (j k : Nat) (h : j + k ≤ d.length) :
    readSlice (writeBytes f off d) (off + j) k = (d.drop j).take k := by
  induction k generalizing j with
  | zero => simp [readSlice]
  | succ k ih =>
      rw [readSlice_succ]
      have hj : j < d.length := by omega
      rw [writeBytes_data_in _ _ _ _ (by omega) (by omega)]
      have h1 : off + j + 1 = off + (j + 1) := by omega
      rw [h1, ih (j + 1) (by omega)]
      have h2 : off + j - off = j := by omega
      rw [h2, List.getD_eq_getElem d 0 hj, List.drop_eq_getElem_cons hj,
        List.take_succ_cons]

theorem readSlice_writeBytes (f : FileM) (off : Nat) (d : List Nat) :
    readSlice (writeBytes f off d) off d.length = d := by
  have h := readSlice_writeBytes_seg f off d 0 d.length (by omega)
  simpa using h

theorem truncateTo_size (f : FileM) (n : Nat) : (truncateTo f n).size = n := rfl

theorem truncateTo_data_lt (f : FileM) (n i : Nat) (h : i < n) :
    (truncateTo f n).data i = f.data i := by
  simp [truncateTo, h]

theorem readSlice_truncateTo (f : FileM) (n off amt : Nat)
    (h : off + amt ≤ n) :
    readSlice (truncateTo f n) off amt = readSlice f off amt := by
  apply readSlice_congr
  intro i hi
  exact truncateTo_data_lt f n (off + i) (by omega)

theorem psMinusHead_eq (ps : Nat) (h8 : 8 ≤ ps) (hlt : ps ≤ 65536) :
    psMinusHead ps = ps - 8 := by
  simp only [psMinusHead]
  omega

theorem enc16_length (n : Nat) : (enc16 n).length = 2 := rfl

theorem enc32_length (n : Nat) : (enc32 n).length = 4 := rfl

theorem be16_enc (n : Nat) (h : n < 2 ^ 16) :
    be16 (n / 256 % 256) (n % 256) = n := by
  simp only [be16]
  omega

theorem be32_enc (n : Nat) (h : n < 2 ^ 32) :
    be32 (n / 2 ^ 24 % 256) (n / 2 ^ 16 % 256) (n / 2 ^ 8 % 256) (n % 256) = n := by
  simp only [be32]
  omega

/-! ## Claim C9: finalize_fs_stats -/

/-- C9 counterexample: finalize_fs_stats does not bump total_bytes.  On a
database whose fs_t row records total_bytes = 100 while an extent has
p_end = 200, finalization marks the row finished but leaves
total_bytes = 100 ≤ max p_end, so the claimed invariant
`total_bytes > max(extent.p_end)` fails and no upward bump occurs. -/
theorem finalize_no_bump_cex :
    (finalize_fs_stats (MapDb.mk [FsRow.mk 1 100 false] [ExtRow.mk 5 200]) 1).fs =
      [FsRow.mk 1 100 true] ∧
    100 ≤ maxPEnd (finalize_fs_stats (MapDb.mk [FsRow.mk 1 100 false] [ExtRow.mk 5 200]) 1) := by
  decide

/-- C9 (amended): finalize_fs_stats only sets finished = 1 on the fs_t row
whose path matches; the extent table, max(extent.p_end) and every row's
path and total_bytes are unchanged, so no bump of total_bytes occurs and
the invariant `total_bytes > max p_end` holds afterwards only if it held
before. -/
theorem finalize_only_sets_finished (db : MapDb) (p : Nat) :
    (finalize_fs_stats db p).extents = db.extents ∧
    maxPEnd (finalize_fs_stats db p) = maxPEnd db ∧
    (finalize_fs_stats db p).fs.map (fun r => (r.path, r.total_bytes)) =
      db.fs.map (fun r => (r.path, r.total_bytes)) ∧
    (finalize_fs_stats db p).fs.map FsRow.finished =
      db.fs.map (fun r => if r.path = p then true else r.finished) := by
  refine ⟨rfl, rfl, ?_, ?_⟩ <;>
  · simp only [finalize_fs_stats, List.map_map]
    apply List.map_congr_left
    intro r _
    by_cases h : r.path = p <;> simp [h]

/-! ## Claim C8: registry contract and the GZIP decompress error value -/

/-- C8: evaluating the embedded GZIP_decompress wrapper at a failing input.
When inflateInit succeeds and the first inflate call reports a library
error (Z_DATA_ERROR = -3, input remaining), the wrapper returns 0 - not a
negative value - so the shim's `ret < 0` check treats the corrupt page as
successfully decompressed to zero bytes. -/
theorem gzip_decompress_error_returns_zero :
    compdb_find_compressor none = some 0 ∧
    compressors.getD 0 "" = "GZIP" ∧
    compdb_find_compressor (some "LZMA") = some 3 ∧
    compdb_find_compressor (some "ZSTD") = none ∧
    GZIP_decompress_model 0 [ZlibStep.mk (-3) 5 0] 512 = 0 ∧
    ¬ GZIP_decompress_model 0 [ZlibStep.mk (-3) 5 0] 512 < 0 := by
  decide

/-! ## Claim C2: the extent coalescer's merge rule -/

/-- The merge condition that walk_extent_helper (src/xfsmapper.c:664)
actually tests: physical and logical adjacency, equal xfs_exntst_t state,
and the combined length below MAX_EXTENT_LENGTH.  The flag bits
(unaligned / inlinedata / extentmap) are not part of the test. -/
def xfsMergeable (last ext : XfsExtent) : Prop :=
  (last.p_off + last.len) % 2 ^ 64 = ext.p_off ∧
  (last.l_off + last.len) % 2 ^ 64 = ext.l_off ∧
  last.state = ext.state ∧
  (last.len + ext.len) % 2 ^ 64 ≤ MAX_EXTENT_LENGTH

instance (last ext : XfsExtent) : Decidable (xfsMergeable last ext) := by
  unfold xfsMergeable; infer_instance

/-- C2 counterexample: two adjacent raw extents that differ in the
data-inline flag bit (so their flag sets - part of the claimed "state" -
differ) are nevertheless merged into a single extent by the coalescer,
because walk_extent_helper compares only the normal-vs-unwritten state
field, never the flag bits. -/
theorem coalesce_merges_despite_flag_mismatch :
    (XfsExtent.mk 0 0 512 0 false true false).inlinedata ≠
      (XfsExtent.mk 512 512 512 0 false false false).inlinedata ∧
    coalesceOutput [XfsExtent.mk 0 0 512 0 false true false,
                    XfsExtent.mk 512 512 512 0 false false false] =
      [XfsExtent.mk 0 0 1024 0 false true false] := by
  decide

/-- C2 (amended): a raw extent b is merged into the current tail a iff
`a.p_off + a.len = b.p_off`, `a.l_off + a.len = b.l_off`,
`a.state = b.state` (the normal-vs-unwritten field only; the flag bits
are not compared) and `a.len + b.len ≤ 2^60` (64-bit sums); otherwise the
tail is flushed and b becomes the new tail; in particular a file with a
hole between two data extents yields exactly two rows. -/
theorem walk_extent_merge_rule :
    (∀ last ext : XfsExtent, last.len ≠ 0 →
      ((walk_extent_helper last ext).2 = [] ↔ xfsMergeable last ext)) ∧
    (∀ last ext : XfsExtent, last.len ≠ 0 → ¬ xfsMergeable last ext →
      walk_extent_helper last ext = (ext, [last])) ∧
    (∀ a b : XfsExtent, a.len ≠ 0 → b.len ≠ 0 →
      (a.l_off + a.len) % 2 ^ 64 ≠ b.l_off →
      coalesceOutput [a, b] = [a, b]) := by
  refine ⟨?_, ?_, ?_⟩
  · intro last ext h
    unfold walk_extent_helper xfsMergeable
    rw [if_pos h]
    by_cases hm : xfsMergeable last ext
    · obtain ⟨h1, h2, h3, h4⟩ := hm
      rw [if_pos ⟨h1, h2, h3, h4⟩]
      exact iff_of_true rfl ⟨h1, h2, h3, h4⟩
    · rw [if_neg (by unfold xfsMergeable at hm; exact hm)]
      simp only [List.cons_ne_self, iff_false]
      unfold xfsMergeable at hm
      tauto
  · intro last ext h hm
    unfold walk_extent_helper
    rw [if_pos h, if_neg (by unfold xfsMergeable at hm; exact hm)]
  · intro a b ha hb hl
    have hm : ¬ ((a.p_off + a.len) % 2 ^ 64 = b.p_off ∧
        (a.l_off + a.len) % 2 ^ 64 = b.l_off ∧ a.state = b.state ∧
        (a.len + b.len) % 2 ^ 64 ≤ MAX_EXTENT_LENGTH) := by tauto
    have h1 : walk_extent_helper emptyTail a = (a, []) := by
      unfold walk_extent_helper emptyTail
      simp
    have h2 : walk_extent_helper a b = (b, [a]) := by
      unfold walk_extent_helper
      rw [if_pos ha, if_neg hm]
    simp [coalesceOutput, runCoalesce, h1, h2, hb]

/-- C2 witness: the merge-rule theorem applied to two concrete mergeable
extents and to the two-extent hole scenario of spec §8 S6. -/
theorem walk_extent_merge_rule_witness :
    ((walk_extent_helper (XfsExtent.mk 0 0 4096 0 false false false)
        (XfsExtent.mk 4096 4096 4096 0 false false false)).2 = []) ∧
    coalesceOutput [XfsExtent.mk 0 0 4096 0 false false false,
                    XfsExtent.mk 4096 1048576 4096 0 false false false] =
      [XfsExtent.mk 0 0 4096 0 false false false,
       XfsExtent.mk 4096 1048576 4096 0 false false false] :=
  ⟨(walk_extent_merge_rule.1 _ _ (by decide)).mpr (by decide),
   walk_extent_merge_rule.2.2 _ _ (by decide) (by decide) (by decide)⟩

/-! ## Claim C10: first-visit inode records -/

/-- Every record the fork walks can insert for a file, directory, symlink
or attribute itype has a non-metadata extent type. -/
theorem insert_xfs_extent_etype_ne (ino : Int) (t : Nat) (x : XfsExtent)
    (ht : t = 1 ∨ t = 2 ∨ t = 7 ∨ t = 27) :
    (insert_xfs_extent ino t x).etype ≠ 3 := by
  by_cases hx : x.extentmap <;>
    rcases ht with h | h | h | h <;>
    simp [insert_xfs_extent, extent_codes, hx, h]

/-- C10: an inode whose seen-bitmap bit is already set contributes no
records; a first visit of a regular file (XFS_DIR3_FT_REG_FILE = 1),
directory (2) or symlink (7) inserts, before any data-fork or attr-fork
extents, exactly one metadata-kind extent whose physical offset is the
inode's on-disk location and whose length is the file system's inode
size - and all remaining records are non-metadata. -/
theorem walk_file_mappings_metadata_first :
    (∀ (ino : Int) (inoLoc inodeSize ftype : Nat)
        (dataFork attrFork : List XfsExtent),
      xfs_walk_file_mappings true ino inoLoc inodeSize ftype dataFork attrFork =
        ([], true)) ∧
    (∀ (ino : Int) (inoLoc inodeSize ftype : Nat)
        (dataFork attrFork : List XfsExtent),
      ftype = 1 ∨ ftype = 2 ∨ ftype = 7 →
      ∃ rest,
        xfs_walk_file_mappings false ino inoLoc inodeSize ftype dataFork attrFork =
          (ExtRecord.mk ino inoLoc none inodeSize 0 3 :: rest, true) ∧
        ∀ r ∈ rest, r.etype ≠ 3) := by
  refine ⟨fun _ _ _ _ _ _ => rfl, ?_⟩
  intro ino inoLoc inodeSize ftype dataFork attrFork hty
  refine ⟨_, rfl, ?_⟩
  intro r hr
  rcases List.mem_append.mp hr with h | h <;>
    obtain ⟨x, _, hx⟩ := List.mem_map.mp h <;>
    subst hx
  · exact insert_xfs_extent_etype_ne ino ftype x (by tauto)
  · exact insert_xfs_extent_etype_ne ino 27 x (by tauto)

/-- C10 witness: the walk theorem applied to a concrete inode with one
data extent. -/
theorem walk_file_mappings_metadata_first_witness :
    xfs_walk_file_mappings true 5 1024 512 1 [] [] = ([], true) ∧
    (∃ rest,
      xfs_walk_file_mappings false 5 1024 512 1
          [XfsExtent.mk 8192 0 4096 0 false false false] [] =
        (ExtRecord.mk 5 1024 none 512 0 3 :: rest, true) ∧
      ∀ r ∈ rest, r.etype ≠ 3) :=
  ⟨walk_file_mappings_metadata_first.1 5 1024 512 1 [] [],
   walk_file_mappings_metadata_first.2 5 1024 512 1
     [XfsExtent.mk 8192 0 4096 0 false false false] [] (by decide)⟩

instance {e a : Type} [DecidableEq e] [DecidableEq a] :
    DecidableEq (Except e a) := fun x y =>
  match x, y with
  | .ok u, .ok v =>
      if h : u = v then .isTrue (by rw [h])
      else .isFalse (by intro hc; injection hc; contradiction)
  | .error u, .error v =>
      if h : u = v then .isTrue (by rw [h])
      else .isFalse (by intro hc; injection hc; contradiction)
  | .ok _, .error _ => .isFalse (by intro hc; exact Except.noConfusion hc)
  | .error _, .ok _ => .isFalse (by intro hc; exact Except.noConfusion hc)

/-! ## Claim C3: the database sniffer -/

/-- The superblock used by counterexamples and witnesses: a valid GZIP
compdb header, pagesize field 512, the three fraction bytes 64/32/32,
freelist_start = 0xFFFFFFFF, freelist_pages = 0, schema_format = 1. -/
def c3Super : List Nat :=
  gzipFileHeader ++ [2, 0] ++ [1, 1, 0] ++ [64, 32, 32] ++
  List.replicate 8 0 ++ [255, 255, 255, 255] ++ [0, 0, 0, 0] ++
  List.replicate 4 0 ++ [0, 0, 0, 1] ++ List.replicate 52 0

/-- C3 counterexample: the sniffer's b-tree lower bound is computed in
32-bit arithmetic.  On an accepted superblock with
freelist_start = 0xFFFFFFFF and freelist_pages = 0 the claimed bound is
(freelist_start + 1 + freelist_pages) = 2^32 pages (2^32 * 512 bytes), but
compdb_sniff stores data_start = 0 because the sum and product wrap mod
2^32. -/
theorem sniff_datastart_overflow :
    compdb_sniff gzipFileHeader (CompdbFile.mk .unknown 0 0) c3Super true =
      .ok (CompdbFile.mk .compressed 512 0) ∧
    (be32At c3Super 32 + 1 + be32At c3Super 36) * 512 = 2 ^ 32 * 512 ∧
    (0 : Nat) ≠ 2 ^ 32 * 512 := by
  decide

/-- C3 (amended): a superblock is classified not-a-database iff its first
16 bytes match neither the canonical SQLite header nor the codec's custom
header, or one of max_fraction = 64, min_fraction = 32, leaf_payload = 32,
big-endian schema_format ≤ 4 fails; on acceptance in the write direction
the page size is decoded with the sentinel 1 meaning 65536 and the b-tree
region lower bound is ((freelist_start + 1 + freelist_pages) mod 2^32) *
page_size, the product again reduced mod 2^32.  The shrinker's sniffer
accepts exactly the same buffers and computes the same two fields. -/
theorem sniff_classification (hdr : List Nat) (ff : CompdbFile)
    (super : List Nat) (isWrite : Bool) :
    (compdb_sniff hdr ff super isWrite = .error .notadb ↔
      ¬ ((super.take 16 = sqliteFileHeader ∨ super.take 16 = hdr) ∧
         byteAt super 21 = 64 ∧ byteAt super 22 = 32 ∧ byteAt super 23 = 32 ∧
         be32At super 44 ≤ 4)) ∧
    (∀ ff', compdb_sniff hdr ff super true = .ok ff' →
      ff'.dbType = .compressed ∧
      ff'.pagesize = (if be16At super 16 = 1 then 65536 else be16At super 16) ∧
      ff'.dataStart =
        ((be32At super 32 + 1 + be32At super 36) % 2 ^ 32 * ff'.pagesize) %
          2 ^ 32) ∧
    (shrink_sniff hdr super = none ↔
      compdb_sniff hdr ff super isWrite = .error .notadb) ∧
    (∀ ty ps ds, shrink_sniff hdr super = some (ty, ps, ds) →
      compdb_sniff hdr ff super true =
        .ok { ff with dbType := .compressed, pagesize := ps,
                      dataStart := ds }) := by
  have hiff : ((¬ super.take 16 = sqliteFileHeader ∧ ¬ super.take 16 = hdr) ∨
      byteAt super 21 ≠ 64 ∨ byteAt super 22 ≠ 32 ∨ byteAt super 23 ≠ 32 ∨
      be32At super 44 > 4) ↔
      ¬ ((super.take 16 = sqliteFileHeader ∨ super.take 16 = hdr) ∧
         byteAt super 21 = 64 ∧ byteAt super 22 = 32 ∧ byteAt super 23 = 32 ∧
         be32At super 44 ≤ 4) := by
    rw [show (be32At super 44 > 4 ↔ ¬ (be32At super 44 ≤ 4)) from
      Iff.symm Nat.not_le]
    tauto
  by_cases hR : (¬ super.take 16 = sqliteFileHeader ∧
      ¬ super.take 16 = hdr) ∨ byteAt super 21 ≠ 64 ∨
      byteAt super 22 ≠ 32 ∨ byteAt super 23 ≠ 32 ∨ be32At super 44 > 4
  · refine ⟨?_, ?_, ?_, ?_⟩
    · simp only [compdb_sniff, if_pos hR]
      exact iff_of_true (by simp) (hiff.mp hR)
    · intro ff' h
      simp only [compdb_sniff, if_pos hR] at h
      exact absurd h (by simp)
    · simp only [compdb_sniff, shrink_sniff, if_pos hR]
    · intro ty ps ds h
      simp only [shrink_sniff, if_pos hR] at h
      exact absurd h (by simp)
  · refine ⟨?_, ?_, ?_, ?_⟩
    · have hAcc := not_not.mp (fun hna => hR (hiff.mpr hna))
      refine iff_of_false ?_ (not_not.mpr hAcc)
      simp only [compdb_sniff, if_neg hR]
      by_cases hsq : super.take 16 = sqliteFileHeader ∧ isWrite = false <;>
        simp [hsq]
    · intro ff' h
      simp only [compdb_sniff, if_neg hR] at h
      have hw : ¬ (super.take 16 = sqliteFileHeader ∧ true = false) := by
        simp
      rw [if_neg hw] at h
      injection h with h'
      subst h'
      refine ⟨rfl, rfl, rfl⟩
    · simp only [compdb_sniff, shrink_sniff, if_neg hR]
      constructor
      · intro h
        exact absurd h (by simp)
      · intro h
        by_cases hsq : super.take 16 = sqliteFileHeader ∧ isWrite = false <;>
          simp [hsq] at h
    · intro ty ps ds h
      simp only [shrink_sniff, if_neg hR] at h
      rw [Option.some.injEq] at h
      have h2 : (if be16At super 16 = 1 then 65536 else be16At super 16) = ps :=
        congrArg (fun z => z.2.1) h
      have h3 : ((be32At super 32 + 1 + be32At super 36) % 2 ^ 32 *
          (if be16At super 16 = 1 then 65536 else be16At super 16)) % 2 ^ 32 =
          ds := congrArg (fun z => z.2.2) h
      rw [h2] at h3
      simp only [compdb_sniff, if_neg hR]
      have hw : ¬ (super.take 16 = sqliteFileHeader ∧ true = false) := by
        simp
      rw [if_neg hw, h2, h3]

/-- C3 witness: the sniffer theorem applied to the concrete accepted
superblock `c3Super` through the shrink-sniffer agreement component. -/
theorem sniff_classification_witness :
    compdb_sniff gzipFileHeader (CompdbFile.mk .unknown 0 0) c3Super true =
      .ok (CompdbFile.mk .compressed 512 0) :=
  (sniff_classification gzipFileHeader (CompdbFile.mk .unknown 0 0) c3Super
    true).2.2.2 .compressed 512 0 (by decide)

/-! ## Claim C4: the read-path framing check -/

set_option maxRecDepth 10000

/-- The shim state shared by the concrete shim scenarios: a file already
classified compressed, page size 512, b-tree region starting at byte 512. -/
def cexShimState : CompdbFile := CompdbFile.mk .compressed 512 512

/-- A codec whose decompress succeeds on anything, to show the framing
check let a bad page through to decompression. -/
def c4Codec : Codec :=
  Codec.mk gzipFileHeader (fun _ _ => []) (fun _ _ => some [1, 2, 3])

/-- A two-page file whose second page carries the compressed-page magic,
declared length 2, and embedded page number 0x00800001 = 8388609, which is
not page 1 - yet 8388609 * 512 = 2^32 + 512 wraps to 512 mod 2^32. -/
def c4File : FileM :=
  writeBytes (writeBytes FileM.empty 0 (List.replicate 512 0)) 512
    ([0xDA, 0xAD, 0, 2, 0, 128, 0, 1, 7, 7] ++ List.replicate 502 0)

/-- C4 counterexample: the framing check multiplies the embedded page
number by the page size in 32-bit arithmetic.  Here the embedded page
number (8388609) times the page size does not equal the read offset (512),
so the claim demands CORRUPT; but the product wraps to 512 mod 2^32, the
check passes, and the read decompresses and succeeds. -/
theorem framing_check_mod32_escape :
    (readSlice c4File 512 512).take 2 = blockMagic ∧
    be32At (readSlice c4File 512 512) 4 = 8388609 ∧
    8388609 * cexShimState.pagesize ≠ 512 ∧
    compdb_read c4Codec cexShimState c4File 512 512 =
      .ok ([1, 2, 3] ++ List.replicate 509 0) := by
  exact ⟨by decide, by decide, by decide, by decide⟩

/-- C4 (amended): for a compressed file, a read (at a nonzero offset, fully
inside the file) of a page past the b-tree bound whose buffer begins with
{0xDA, 0xAD} fails with CORRUPT - for every codec, so decompression is
never consulted - whenever the declared length exceeds page_size - 8 or
the embedded page number times the page size, reduced mod 2^32, differs
from the read offset. -/
theorem read_bad_framing_corrupt (c : Codec) (ff : CompdbFile) (f : FileM)
    (amt off : Nat)
    (hff : ff.dbType = .compressed)
    (hoff : off ≠ 0)
    (hsz : off + amt ≤ f.size)
    (hbt : ff.dataStart < off + amt)
    (hmag : (readSlice f off amt).take 2 = blockMagic)
    (hbad : psMinusHead ff.pagesize < be16At (readSlice f off amt) 2 ∨
      be32At (readSlice f off amt) 4 * ff.pagesize % 2 ^ 32 ≠ off) :
    compdb_read c ff f amt off = .error .corrupt := by
  unfold compdb_read
  rw [if_pos hsz]
  dsimp only
  have hraw : (if ff.dbType = DbType.compressed ∧ off = 0 then
      sqliteFileHeader ++ (readSlice f off amt).drop 16
      else readSlice f off amt) = readSlice f off amt :=
    if_neg (fun hq => hoff hq.2)
  rw [hraw]
  have hok : ¬ (ff.dbType = DbType.regular ∨ off + amt ≤ ff.dataStart ∨
      (readSlice f off amt).take 2 ≠ blockMagic) := by
    rintro (h | h | h)
    · rw [hff] at h
      exact DbType.noConfusion h
    · omega
    · exact h hmag
  rw [if_neg hok, if_pos hbad]

/-- A file whose second page declares a compressed length of 65535,
far beyond page_size - 8 = 504. -/
def c4BadFile : FileM :=
  writeBytes (writeBytes FileM.empty 0 (List.replicate 512 0)) 512
    ([0xDA, 0xAD, 255, 255, 0, 0, 0, 1] ++ List.replicate 504 1)

/-- C4 witness: the framing theorem applied to a concrete page whose
declared length is out of bounds. -/
theorem read_bad_framing_corrupt_witness :
    compdb_read c4Codec cexShimState c4BadFile 512 512 = .error .corrupt :=
  read_bad_framing_corrupt c4Codec cexShimState c4BadFile 512 512
    (by decide) (by decide) (by decide) (by decide) (by decide) (by decide)

/-! ## Claim C5: the write-path truncation discipline -/

/-- A codec that always compresses to the single byte [9]. -/
def c5Codec : Codec :=
  Codec.mk gzipFileHeader (fun _ _ => [9]) (fun _ _ => none)

/-- A pre-existing file of 1536 bytes (three 512-byte pages). -/
def c5File : FileM := writeBytes FileM.empty 0 (List.replicate 1536 1)

/-- The framed compressed page the code writes for that scenario. -/
def c5Frame : List Nat := blockMagic ++ enc16 1 ++ enc32 1 ++ [9]

/-- C5 counterexample: rewriting an interior page (offset 512) of a
1536-byte compressed file.  The claimed discipline - truncate to
offset + compressed_total before the write, then truncate up to
offset + page_size - would leave the file 1024 bytes long (as
`specShimWriteDiscipline`, modelled from the spec, shows); compdb_write
issues no truncation before the write and only grows the file afterwards,
leaving it at 1536 bytes. -/
theorem write_truncation_discipline_differs :
    writeResultSize (compdb_write c5Codec cexShimState c5File
      (List.replicate 512 3) 512) = 1536 ∧
    (specShimWriteDiscipline c5File 512 c5Frame 512).size = 1024 ∧
    (1536 : Nat) ≠ 1024 := by
  exact ⟨by decide, by decide, by decide⟩

/-- The 8-byte framing plus compressed payload that compdb_write builds
for a b-tree page write. -/
def compdbFrame (c : Codec) (ff : CompdbFile) (d : List Nat) (off : Nat) :
    List Nat :=
  blockMagic ++ enc16 (c.compress d (psMinusHead ff.pagesize)).length ++
  enc32 (off / ff.pagesize % 2 ^ 32) ++ c.compress d (psMinusHead ff.pagesize)

theorem compdbFrame_length (c : Codec) (ff : CompdbFile) (d : List Nat)
    (off : Nat) :
    (compdbFrame c ff d off).length =
      8 + (c.compress d (psMinusHead ff.pagesize)).length := by
  simp [compdbFrame, blockMagic, enc16, enc32]
  omega

/-- The compressed branch of compdb_write, as an explicit equation. -/
theorem compdb_write_compressed_eq (c : Codec) (ff : CompdbFile) (f : FileM)
    (d : List Nat) (off : Nat)
    (hff : ff.dbType = .compressed)
    (hbt : ff.dataStart < off + d.length)
    (hc : c.compress d (psMinusHead ff.pagesize) ≠ []) :
    compdb_write c ff f d off = .ok (ff,
      if off + d.length > (writeBytes f off (compdbFrame c ff d off)).size
      then truncateTo (writeBytes f off (compdbFrame c ff d off))
        (off + d.length)
      else writeBytes f off (compdbFrame c ff d off)) := by
  have hnu : (if ff.dbType = DbType.unknown then compdb_sniff c.header ff d true
      else Except.ok ff) = Except.ok ff := by
    rw [if_neg (by rw [hff]; exact fun hc' => DbType.noConfusion hc')]
  have hreg : ¬ (ff.dbType = DbType.regular ∨ off + d.length ≤ ff.dataStart) := by
    rintro (h | h)
    · rw [hff] at h
      exact DbType.noConfusion h
    · omega
  unfold compdb_write compdbFrame
  rw [hnu]
  dsimp only
  rw [if_neg hreg, if_neg hc]

/-- C5 (amended): on a compressed page write the shim issues no truncation
before the write; it writes the framed data (growing the file to at least
offset + compressed_total) and afterwards truncates up to offset + iAmt
only when the file would otherwise end sooner.  The resulting size is
max(max(old size, offset + compressed_total), offset + iAmt): never below
offset + iAmt - so a subsequent full-page read is never short - and never
below the old size - so no shrink-before-write happens.  (The
shrink-then-grow double truncation lives in the offline shrinker, not the
shim.) -/
theorem compdb_write_size_formula (c : Codec) (ff : CompdbFile) (f : FileM)
    (d : List Nat) (off : Nat)
    (hff : ff.dbType = .compressed)
    (hbt : ff.dataStart < off + d.length)
    (hc : c.compress d (psMinusHead ff.pagesize) ≠ []) :
    ∃ f2, compdb_write c ff f d off = .ok (ff, f2) ∧
      f2.size = max (max f.size
        (off + (8 + (c.compress d (psMinusHead ff.pagesize)).length)))
        (off + d.length) ∧
      off + d.length ≤ f2.size ∧ f.size ≤ f2.size := by
  have hsz : (if off + d.length > (writeBytes f off (compdbFrame c ff d off)).size
      then truncateTo (writeBytes f off (compdbFrame c ff d off))
        (off + d.length)
      else writeBytes f off (compdbFrame c ff d off)).size =
      max (max f.size
        (off + (8 + (c.compress d (psMinusHead ff.pagesize)).length)))
        (off + d.length) := by
    by_cases hgt : off + d.length >
        (writeBytes f off (compdbFrame c ff d off)).size
    · rw [if_pos hgt, truncateTo_size]
      rw [writeBytes_size, compdbFrame_length] at hgt
      omega
    · rw [if_neg hgt, writeBytes_size, compdbFrame_length]
      rw [writeBytes_size, compdbFrame_length] at hgt
      omega
  exact ⟨_, compdb_write_compressed_eq c ff f d off hff hbt hc, hsz,
    by rw [hsz]; omega, by rw [hsz]; omega⟩

/-- C5 witness: the size-formula theorem applied to the concrete interior
rewrite scenario (the counterexample's inputs). -/
theorem compdb_write_size_formula_witness :
    ∃ f2, compdb_write c5Codec cexShimState c5File (List.replicate 512 3) 512 =
        .ok (cexShimState, f2) ∧
      f2.size = max (max c5File.size
        (512 + (8 + (c5Codec.compress (List.replicate 512 3)
          (psMinusHead cexShimState.pagesize)).length)))
        (512 + (List.replicate 512 3).length) ∧
      512 + (List.replicate 512 3).length ≤ f2.size ∧ c5File.size ≤ f2.size :=
  compdb_write_size_formula c5Codec cexShimState c5File
    (List.replicate 512 3) 512 rfl (by decide) (by decide)

/-! ## Claim C6: incompressible-page pass-through -/

/-- A codec that reports every input incompressible (compress returns 0). -/
def c6Codec : Codec :=
  Codec.mk gzipFileHeader (fun _ _ => []) (fun _ _ => none)

/-- A one-page file preceding the incompressible write. -/
def c6File : FileM := writeBytes FileM.empty 0 (List.replicate 512 2)

/-- C6 counterexample: writing one incompressible b-tree page (page 1,
offset 512) through the shim leaves a file of size offset + page_size =
1024 bytes, not page_size = 512 bytes as the claim states. -/
theorem incompressible_write_size_not_pagesize :
    writeResultSize (compdb_write c6Codec cexShimState c6File
      (List.replicate 512 3) 512) = 1024 ∧
    cexShimState.pagesize = 512 ∧ (1024 : Nat) ≠ 512 :=
  ⟨by decide, rfl, by decide⟩

/-- C6 (amended): on a b-tree-region write where the codec (called with
destination capacity page_size - 8) returns zero, the page is written
through verbatim with no framing and no truncation: the on-disk bytes at
the page's offset equal the buffer (so they do not begin with
{0xDA, 0xAD} when the host's page does not), and the file size becomes
max(old size, offset + page_size) - exactly offset + page_size when the
write appends. -/
theorem incompressible_passthrough (c : Codec) (ff : CompdbFile) (f : FileM)
    (d : List Nat) (off : Nat)
    (hff : ff.dbType = .compressed)
    (hbt : ff.dataStart < off + d.length)
    (hc : c.compress d (psMinusHead ff.pagesize) = [])
    (hoff : off ≠ 0)
    (hm : d.take 2 ≠ blockMagic) :
    compdb_write c ff f d off = .ok (ff, writeBytes f off d) ∧
    (writeBytes f off d).size = max f.size (off + d.length) ∧
    readSlice (writeBytes f off d) off d.length = d ∧
    (readSlice (writeBytes f off d) off d.length).take 2 ≠ blockMagic := by
  have hnu : (if ff.dbType = DbType.unknown then compdb_sniff c.header ff d true
      else Except.ok ff) = Except.ok ff := by
    rw [if_neg (by rw [hff]; exact fun hc' => DbType.noConfusion hc')]
  have hreg : ¬ (ff.dbType = DbType.regular ∨ off + d.length ≤ ff.dataStart) := by
    rintro (h | h)
    · rw [hff] at h
      exact DbType.noConfusion h
    · omega
  refine ⟨?_, writeBytes_size f off d, readSlice_writeBytes f off d, ?_⟩
  · unfold compdb_write
    rw [hnu]
    dsimp only
    rw [if_neg hreg, if_pos hc]
    unfold compdb_write_nocompr
    rw [if_pos (Or.inl hoff)]
  · rw [readSlice_writeBytes]
    exact hm

/-- C6 witness: the pass-through theorem applied to a concrete
incompressible page appended at offset 512. -/
theorem incompressible_passthrough_witness :
    compdb_write c6Codec cexShimState c6File (List.replicate 512 3) 512 =
      .ok (cexShimState, writeBytes c6File 512 (List.replicate 512 3)) ∧
    (writeBytes c6File 512 (List.replicate 512 3)).size =
      max c6File.size (512 + (List.replicate 512 3).length) ∧
    readSlice (writeBytes c6File 512 (List.replicate 512 3)) 512
      (List.replicate 512 3).length = List.replicate 512 3 ∧
    (readSlice (writeBytes c6File 512 (List.replicate 512 3)) 512
      (List.replicate 512 3).length).take 2 ≠ blockMagic :=
  incompressible_passthrough c6Codec cexShimState c6File
    (List.replicate 512 3) 512 rfl (by decide) (by decide) (by decide)
    (by decide)

/-! ## Claim C1: the page-shim round-trip -/

theorem readSlice_eq_of_data (F : FileM) (o : Nat) (l : List Nat)
    (h : ∀ i, i < l.length → F.data (o + i) = l.getD i 0) :
    readSlice F o l.length = l := by
  induction l generalizing o with
  | nil => simp [readSlice]
  | cons a t ih =>
      rw [List.length_cons, readSlice_succ]
      refine congrArg₂ List.cons ?_ (ih (o + 1) ?_)
      · simpa using h 0 (by simp)
      · intro i hi
        have ht := h (i + 1) (by simpa using Nat.succ_lt_succ hi)
        simp only [List.getD_cons_succ] at ht
        rw [show o + 1 + i = o + (i + 1) from by omega]
        exact ht

/-- Reading back one page whose on-disk bytes carry a well-formed
compressed frame: the shim verifies the framing and returns the
decompressed page, zero-filled to the page size. -/
theorem compdb_read_frame_ok (c : Codec) (ff : CompdbFile) (F2 : FileM)
    (buf L : List Nat) (off : Nat)
    (hff : ff.dbType = .compressed)
    (hoffne : off ≠ 0)
    (h16 : 16 ≤ ff.pagesize) (hps64 : ff.pagesize ≤ 65536)
    (hbt : ff.dataStart < off + ff.pagesize)
    (halign : off = off / ff.pagesize * ff.pagesize)
    (hoff32 : off < 2 ^ 32)
    (hL8 : L.length ≤ ff.pagesize - 8)
    (hsz : off + ff.pagesize ≤ F2.size)
    (hdata : ∀ i, i < 8 + L.length → F2.data (off + i) =
      (blockMagic ++ enc16 L.length ++ enc32 (off / ff.pagesize) ++ L).getD i 0)
    (hdec : c.decompress L ff.pagesize = some buf)
    (hbuflen : buf.length = ff.pagesize) :
    compdb_read c ff F2 ff.pagesize off = .ok buf := by
  unfold compdb_read
  rw [if_pos hsz]
  dsimp only
  have hraw : ¬ (ff.dbType = DbType.compressed ∧ off = 0) := fun hq => hoffne hq.2
  rw [if_neg hraw]
  have hb : ∀ i, i < 8 → byteAt (readSlice F2 off ff.pagesize) i =
      (blockMagic ++ enc16 L.length ++ enc32 (off / ff.pagesize) ++ L).getD i 0 := by
    intro i hi
    rw [byteAt_readSlice _ _ _ _ (by omega)]
    exact hdata i (by omega)
  have hfr : (blockMagic ++ enc16 L.length ++ enc32 (off / ff.pagesize) ++ L) =
      218 :: 173 :: (L.length / 256 % 256) :: (L.length % 256) ::
      (off / ff.pagesize / 2 ^ 24 % 256) :: (off / ff.pagesize / 2 ^ 16 % 256) ::
      (off / ff.pagesize / 2 ^ 8 % 256) :: (off / ff.pagesize % 256) :: L := by
    simp [blockMagic, enc16, enc32]
  have htake2 : (readSlice F2 off ff.pagesize).take 2 = blockMagic := by
    have hsp := readSlice_split F2 off 2 (ff.pagesize - 2)
    rw [Nat.add_sub_cancel' (by omega : 2 ≤ ff.pagesize)] at hsp
    rw [hsp, List.take_left' (readSlice_length _ _ _)]
    refine readSlice_eq_of_data F2 off blockMagic ?_
    intro i hi
    have hi2 : i < 2 := by simpa [blockMagic] using hi
    rw [hdata i (by omega), hfr]
    interval_cases i <;> rfl
  have hclen : be16At (readSlice F2 off ff.pagesize) 2 = L.length := by
    unfold be16At
    rw [hb 2 (by omega), hb 3 (by omega), hfr]
    simp only [List.getD_cons_succ, List.getD_cons_zero]
    exact be16_enc _ (by omega)
  have hpno : be32At (readSlice F2 off ff.pagesize) 4 = off / ff.pagesize := by
    unfold be32At
    rw [hb 4 (by omega), hb 5 (by omega), hb 6 (by omega), hb 7 (by omega), hfr]
    simp only [List.getD_cons_succ, List.getD_cons_zero]
    refine be32_enc _ ?_
    calc off / ff.pagesize ≤ off := Nat.div_le_self off ff.pagesize
    _ < 2 ^ 32 := hoff32
  have hok : ¬ (ff.dbType = DbType.regular ∨ off + ff.pagesize ≤ ff.dataStart ∨
      (readSlice F2 off ff.pagesize).take 2 ≠ blockMagic) := by
    rintro (h | h | h)
    · rw [hff] at h
      exact DbType.noConfusion h
    · omega
    · exact h htake2
  rw [if_neg hok, hclen, hpno]
  have hcorr : ¬ (psMinusHead ff.pagesize < L.length ∨
      off / ff.pagesize * ff.pagesize % 2 ^ 32 ≠ off) := by
    rw [psMinusHead_eq _ (by omega) hps64]
    rintro (h | h)
    · omega
    · apply h
      rw [← halign]
      exact Nat.mod_eq_of_lt hoff32
  rw [if_neg hcorr]
  have harg : ((readSlice F2 off ff.pagesize).drop 8).take L.length = L := by
    have hsp := readSlice_split F2 off 8 (ff.pagesize - 8)
    rw [Nat.add_sub_cancel' (by omega : 8 ≤ ff.pagesize)] at hsp
    rw [hsp, List.drop_left' (readSlice_length _ _ _)]
    have hsp2 := readSlice_split F2 (off + 8) L.length
      (ff.pagesize - 8 - L.length)
    rw [show L.length + (ff.pagesize - 8 - L.length) = ff.pagesize - 8 from
      by omega] at hsp2
    rw [hsp2, List.take_left' (readSlice_length _ _ _)]
    refine readSlice_eq_of_data F2 (off + 8) L ?_
    intro i hi
    have h1 : off + 8 + i = off + (8 + i) := by omega
    have h2 : 8 + i = i + 1 + 1 + 1 + 1 + 1 + 1 + 1 + 1 := by omega
    rw [h1, hdata (8 + i) (by omega), hfr, h2]
    simp only [List.getD_cons_succ]
  rw [harg, hdec]
  dsimp only
  rw [hbuflen, Nat.sub_self, List.replicate_zero,
    List.drop_eq_nil_of_le (by rw [readSlice_length])]
  rw [List.append_nil, List.append_nil]

/-- C1 (amended): page-shim round-trip.  For a file classified compressed
(sane geometry: 16 ≤ page_size ≤ 65536, b-tree bound at least one page),
writing a full host page buf at page n through the shim and then reading a
full page back at page n returns buf verbatim - the decompressed payload
copied back and the rest of the page zero-filled - for every codec whose
compress/decompress pair inverts on buf within capacity page_size - 8,
provided the page's byte offset n * page_size lies below 2^32 (the framing
stores the page number in 32 bits and re-multiplies in 32-bit arithmetic,
so pages at or beyond 4 GiB fail the read-back framing check), buf does
not begin with the compressed-page magic, and a page-0 write carries the
canonical SQLite header. -/
theorem compdb_page_roundtrip (c : Codec) (ff : CompdbFile) (f : FileM)
    (buf : List Nat) (n : Nat)
    (hff : ff.dbType = .compressed)
    (h16 : 16 ≤ ff.pagesize) (hps64 : ff.pagesize ≤ 65536)
    (hds : ff.pagesize ≤ ff.dataStart)
    (hlen : buf.length = ff.pagesize)
    (hmag : buf.take 2 ≠ blockMagic)
    (h0 : n = 0 → buf.take 16 = sqliteFileHeader)
    (hhdr : c.header.length = 16)
    (h32 : n * ff.pagesize < 2 ^ 32)
    (hcomp : c.compress buf (ff.pagesize - 8) ≠ [] →
      (c.compress buf (ff.pagesize - 8)).length ≤ ff.pagesize - 8 ∧
      c.decompress (c.compress buf (ff.pagesize - 8)) ff.pagesize = some buf) :
    ∃ f2, compdb_write c ff f buf (n * ff.pagesize) = .ok (ff, f2) ∧
      compdb_read c ff f2 ff.pagesize (n * ff.pagesize) = .ok buf := by
  have hppos : 0 < ff.pagesize := by omega
  have hpm : psMinusHead ff.pagesize = ff.pagesize - 8 :=
    psMinusHead_eq _ (by omega) hps64
  have hnu : (if ff.dbType = DbType.unknown then
      compdb_sniff c.header ff buf true else Except.ok ff) = Except.ok ff := by
    rw [if_neg (by rw [hff]; exact fun hc' => DbType.noConfusion hc')]
  by_cases hn0 : n = 0
  · -- page 0: pass-through plus header rewriting on both sides
    subst hn0
    simp only [Nat.zero_mul]
    refine ⟨writeBytes (writeBytes f 0 buf) 0 c.header, ?_, ?_⟩
    · unfold compdb_write
      rw [hnu]
      dsimp only
      rw [if_pos (Or.inr (by omega))]
      unfold compdb_write_nocompr
      rw [if_neg (by
        rintro (h | h)
        · exact h rfl
        · rw [hff] at h
          exact DbType.noConfusion h)]
    · have hsz2 : 0 + ff.pagesize ≤
          (writeBytes (writeBytes f 0 buf) 0 c.header).size := by
        rw [writeBytes_size, writeBytes_size]
        omega
      unfold compdb_read
      rw [if_pos hsz2]
      dsimp only
      have hq : ff.dbType = DbType.compressed ∧ (0 : Nat) = 0 := ⟨hff, rfl⟩
      rw [if_pos hq]
      have hcond : ff.dbType = DbType.regular ∨
          0 + ff.pagesize ≤ ff.dataStart ∨
          (sqliteFileHeader ++
            (readSlice (writeBytes (writeBytes f 0 buf) 0 c.header) 0
              ff.pagesize).drop 16).take 2 ≠ blockMagic :=
        Or.inr (Or.inl (by omega))
      rw [if_pos hcond]
      have hsplit := readSlice_split
        (writeBytes (writeBytes f 0 buf) 0 c.header) 0 16 (ff.pagesize - 16)
      rw [Nat.add_sub_cancel' h16] at hsplit
      rw [hsplit, List.drop_left' (readSlice_length _ _ _)]
      have htail : readSlice (writeBytes (writeBytes f 0 buf) 0 c.header)
          (0 + 16) (ff.pagesize - 16) =
          readSlice (writeBytes f 0 buf) (0 + 16) (ff.pagesize - 16) := by
        apply readSlice_congr
        intro i hi
        rw [writeBytes_data_out _ _ _ _ (by rw [hhdr]; omega)]
        rw [if_pos (show 0 + 16 + i < (writeBytes f 0 buf).size from by
          rw [writeBytes_size]; omega)]
      have hseg := readSlice_writeBytes_seg f 0 buf 16 (ff.pagesize - 16)
        (by omega)
      rw [htail, hseg, List.take_of_length_le
        (by simp [List.length_drop, hlen]), ← h0 rfl, List.take_append_drop]
  · -- nonzero page number
    have hoffne : n * ff.pagesize ≠ 0 := Nat.mul_ne_zero hn0 (by omega)
    have hraw : ¬ (ff.dbType = DbType.compressed ∧ n * ff.pagesize = 0) :=
      fun hq => hoffne hq.2
    by_cases hA : n * ff.pagesize + buf.length ≤ ff.dataStart
    · -- page before the b-tree region: verbatim both ways
      refine ⟨writeBytes f (n * ff.pagesize) buf, ?_, ?_⟩
      · unfold compdb_write
        rw [hnu]
        dsimp only
        rw [if_pos (Or.inr hA)]
        unfold compdb_write_nocompr
        rw [if_pos (Or.inl hoffne)]
      · have hsz2 : n * ff.pagesize + ff.pagesize ≤
            (writeBytes f (n * ff.pagesize) buf).size := by
          rw [writeBytes_size]
          omega
        unfold compdb_read
        rw [if_pos hsz2]
        dsimp only
        rw [if_neg hraw, if_pos (Or.inr (Or.inl (by omega)))]
        have hs : readSlice (writeBytes f (n * ff.pagesize) buf)
            (n * ff.pagesize) ff.pagesize = buf := by
          have h' := readSlice_writeBytes f (n * ff.pagesize) buf
          rw [hlen] at h'
          exact h'
        rw [hs]
    · by_cases hc0 : c.compress buf (psMinusHead ff.pagesize) = []
      · -- incompressible page: verbatim pass-through
        refine ⟨writeBytes f (n * ff.pagesize) buf, ?_, ?_⟩
        · unfold compdb_write
          rw [hnu]
          dsimp only
          rw [if_neg (by
            rintro (h | h)
            · rw [hff] at h
              exact DbType.noConfusion h
            · exact hA h)]
          rw [if_pos hc0]
          unfold compdb_write_nocompr
          rw [if_pos (Or.inl hoffne)]
        · have hsz2 : n * ff.pagesize + ff.pagesize ≤
              (writeBytes f (n * ff.pagesize) buf).size := by
            rw [writeBytes_size]
            omega
          unfold compdb_read
          rw [if_pos hsz2]
          dsimp only
          rw [if_neg hraw]
          have hs : readSlice (writeBytes f (n * ff.pagesize) buf)
              (n * ff.pagesize) ff.pagesize = buf := by
            have h' := readSlice_writeBytes f (n * ff.pagesize) buf
            rw [hlen] at h'
            exact h'
          rw [hs, if_pos (Or.inr (Or.inr hmag))]
      · -- compressible page: framed write, framing-verified read
        obtain ⟨hclen0, hdec0⟩ := hcomp (by rw [← hpm]; exact hc0)
        have hclen : (c.compress buf (psMinusHead ff.pagesize)).length ≤
            ff.pagesize - 8 := by
          rw [hpm]
          exact hclen0
        have hdec : c.decompress (c.compress buf (psMinusHead ff.pagesize))
            ff.pagesize = some buf := by
          rw [hpm]
          exact hdec0
        have hbt' : ff.dataStart < n * ff.pagesize + buf.length := by omega
        have hfrlen := compdbFrame_length c ff buf (n * ff.pagesize)
        have hn32 : n < 2 ^ 32 := by
          have := Nat.le_mul_of_pos_right n hppos
          omega
        have hpg : n * ff.pagesize / ff.pagesize = n :=
          Nat.mul_div_cancel n hppos
        have hfdata : ∀ i,
            i < 8 + (c.compress buf (psMinusHead ff.pagesize)).length →
            (writeBytes f (n * ff.pagesize)
              (compdbFrame c ff buf (n * ff.pagesize))).data
                (n * ff.pagesize + i) =
            (blockMagic ++
             enc16 (c.compress buf (psMinusHead ff.pagesize)).length ++
             enc32 (n * ff.pagesize / ff.pagesize) ++
             c.compress buf (psMinusHead ff.pagesize)).getD i 0 := by
          intro i hi
          rw [writeBytes_data_in _ _ _ _ (by omega) (by rw [hfrlen]; omega)]
          have h1 : n * ff.pagesize + i - n * ff.pagesize = i := by omega
          rw [h1]
          have hfr2 : compdbFrame c ff buf (n * ff.pagesize) =
              blockMagic ++
              enc16 (c.compress buf (psMinusHead ff.pagesize)).length ++
              enc32 (n * ff.pagesize / ff.pagesize) ++
              c.compress buf (psMinusHead ff.pagesize) := by
            unfold compdbFrame
            rw [show n * ff.pagesize / ff.pagesize % 2 ^ 32 =
              n * ff.pagesize / ff.pagesize from by
              rw [hpg]; exact Nat.mod_eq_of_lt hn32]
          rw [hfr2]
        have hsz2 : n * ff.pagesize + ff.pagesize ≤
            (if n * ff.pagesize + buf.length >
                (writeBytes f (n * ff.pagesize)
                  (compdbFrame c ff buf (n * ff.pagesize))).size
             then truncateTo (writeBytes f (n * ff.pagesize)
                (compdbFrame c ff buf (n * ff.pagesize)))
                (n * ff.pagesize + buf.length)
             else writeBytes f (n * ff.pagesize)
                (compdbFrame c ff buf (n * ff.pagesize))).size := by
          by_cases hgt : n * ff.pagesize + buf.length >
              (writeBytes f (n * ff.pagesize)
                (compdbFrame c ff buf (n * ff.pagesize))).size
          · rw [if_pos hgt, truncateTo_size]
            omega
          · rw [if_neg hgt]
            rw [writeBytes_size] at hgt ⊢
            omega
        have hdat2 : ∀ i,
            i < 8 + (c.compress buf (psMinusHead ff.pagesize)).length →
            (if n * ff.pagesize + buf.length >
                (writeBytes f (n * ff.pagesize)
                  (compdbFrame c ff buf (n * ff.pagesize))).size
             then truncateTo (writeBytes f (n * ff.pagesize)
                (compdbFrame c ff buf (n * ff.pagesize)))
                (n * ff.pagesize + buf.length)
             else writeBytes f (n * ff.pagesize)
                (compdbFrame c ff buf (n * ff.pagesize))).data
              (n * ff.pagesize + i) =
            (blockMagic ++
             enc16 (c.compress buf (psMinusHead ff.pagesize)).length ++
             enc32 (n * ff.pagesize / ff.pagesize) ++
             c.compress buf (psMinusHead ff.pagesize)).getD i 0 := by
          intro i hi
          by_cases hgt : n * ff.pagesize + buf.length >
              (writeBytes f (n * ff.pagesize)
                (compdbFrame c ff buf (n * ff.pagesize))).size
          · rw [if_pos hgt]
            rw [truncateTo_data_lt _ _ _ (by omega)]
            exact hfdata i hi
          · rw [if_neg hgt]
            exact hfdata i hi
        exact ⟨_, compdb_write_compressed_eq c ff f buf (n * ff.pagesize)
          hff hbt' hc0,
          compdb_read_frame_ok c ff _ buf
            (c.compress buf (psMinusHead ff.pagesize)) (n * ff.pagesize)
            hff hoffne h16 hps64 (by omega) (by rw [hpg]) (by omega) hclen
            hsz2 hdat2 hdec hlen⟩

/-- A concrete host page for the round-trip scenarios. -/
def c1Buf : List Nat := List.replicate 512 7

/-- A registry-contract-conforming codec for the round-trip scenarios:
c1Buf compresses to the single byte [9] and decompresses back exactly. -/
def c1Codec : Codec :=
  Codec.mk gzipFileHeader
    (fun src cap => if src = c1Buf ∧ cap = 504 then [9] else [])
    (fun src cap => if src = [9] ∧ cap = 512 then some c1Buf else none)

/-- The file state after writing c1Buf at byte offset 2^32 (page 2^23 of a
512-byte-page file) through the shim. -/
def c1CexFile : FileM :=
  match compdb_write c1Codec cexShimState FileM.empty c1Buf (2 ^ 32) with
  | .ok (_, f2) => f2
  | .error _ => FileM.empty

/-- C1 counterexample: the round-trip fails for pages at or beyond 4 GiB.
The write at offset 2^32 succeeds (the file is extended to 2^32 + 512
bytes), but the next full-page read at the same page returns CORRUPT
rather than the written buffer: the stored 32-bit page number 2^23 times
the page size wraps to 0 mod 2^32 and no longer matches the offset. -/
theorem roundtrip_fails_beyond_4g :
    writeResultSize (compdb_write c1Codec cexShimState FileM.empty c1Buf
      (2 ^ 32)) = 2 ^ 32 + 512 ∧
    compdb_read c1Codec cexShimState c1CexFile 512 (2 ^ 32) =
      .error .corrupt ∧
    (Except.error .corrupt : Except SqliteErr (List Nat)) ≠ .ok c1Buf :=
  ⟨by decide, by decide, by decide⟩

/-- C1 witness: the round-trip theorem applied to the concrete page 2 of a
512-byte-page compressed file with the concrete codec c1Codec. -/
theorem compdb_page_roundtrip_witness :
    ∃ f2, compdb_write c1Codec cexShimState FileM.empty c1Buf 1024 =
        .ok (cexShimState, f2) ∧
      compdb_read c1Codec cexShimState f2 512 1024 = .ok c1Buf :=
  compdb_page_roundtrip c1Codec cexShimState FileM.empty c1Buf 2 rfl
    (by decide) (by decide) (by decide) (by decide) (by decide)
    (fun h => absurd h (by decide)) (by decide) (by decide)
    (fun _ => ⟨by decide, by decide⟩)

/-! ## Claim C7: structural lemmas for the range-coded bitmap -/

theorem chain'_append_cons {α : Type} {R : α → α → Prop} (A : List α) (x : α)
    (B : List α) :
    (A ++ x :: B).Chain' R ↔
      A.Chain' R ∧ B.Chain' R ∧ (∀ a ∈ A.getLast?, R a x) ∧
      (∀ b ∈ B.head?, R x b) := by
  rw [List.chain'_append, List.chain'_cons']
  constructor
  · rintro ⟨h1, ⟨h2, h3⟩, h4⟩
    exact ⟨h1, h3, fun a ha => h4 a ha x rfl, h2⟩
  · rintro ⟨h1, h2, h3, h4⟩
    refine ⟨h1, ⟨h4, h2⟩, ?_⟩
    intro a ha y hy
    have : y = x := by
      simpa [eq_comm] using hy
    subst this
    exact h3 a ha

theorem chain'_lt_head {x : Nat × Nat} {l : Bmap}
    (h : (x :: l).Chain' (fun p q => p.1 < q.1)) : ∀ p ∈ l, x.1 < p.1 := by
  induction l generalizing x with
  | nil =>
      intro p hp
      cases hp
  | cons b t ih =>
      rw [List.chain'_cons] at h
      intro p hp
      rcases List.mem_cons.mp hp with rfl | hp
      · exact h.1
      · exact lt_trans h.1 (ih h.2 p hp)

theorem btree_find_split {m : Bmap} {k : Nat} {q : Nat × Nat}
    (h : btree_find m k = some q) :
    ∃ A B, m = A ++ q :: B ∧ (∀ p ∈ A, p.1 < k) ∧ k ≤ q.1 := by
  induction m with
  | nil => exact absurd h (by simp [btree_find])
  | cons p t ih =>
      unfold btree_find at h
      by_cases hk : k ≤ p.1
      · rw [if_pos hk] at h
        injection h with h
        subst h
        exact ⟨[], t, rfl, by simp, hk⟩
      · rw [if_neg hk] at h
        obtain ⟨A, B, hm, hA, hq⟩ := ih h
        exact ⟨p :: A, B, by rw [hm]; rfl, by
          intro r hr
          rcases List.mem_cons.mp hr with rfl | hr
          · omega
          · exact hA r hr, hq⟩

theorem btree_find_cons (p : Nat × Nat) (t : Bmap) (k : Nat) :
    btree_find (p :: t) k = if k ≤ p.1 then some p else btree_find t k := rfl

theorem btree_peek_prev_cons (p : Nat × Nat) (t : Bmap) (c : Nat) :
    btree_peek_prev (p :: t) c =
      if p.1 < c then
        match btree_peek_prev t c with
        | none => some p
        | some q => some q
      else none := rfl

theorem btree_peek_next_cons (p : Nat × Nat) (t : Bmap) (c : Nat) :
    btree_peek_next (p :: t) c =
      if p.1 ≤ c then btree_peek_next t c else some p := rfl

theorem btree_insert_cons (p : Nat × Nat) (t : Bmap) (k v : Nat) :
    btree_insert (p :: t) k v =
      if k < p.1 then (k, v) :: p :: t else p :: btree_insert t k v := rfl

theorem btree_delete_cons_eq (p : Nat × Nat) (t : Bmap) (k : Nat) :
    btree_delete (p :: t) k =
      if p.1 = k then t else p :: btree_delete t k := rfl

theorem btree_peek_prev_spec {A B : Bmap} {c : Nat}
    (hA : ∀ p ∈ A, p.1 < c) (hB : ∀ p ∈ B, ¬ p.1 < c) :
    btree_peek_prev (A ++ B) c = A.getLast? := by
  induction A with
  | nil =>
      cases B with
      | nil => rfl
      | cons b t =>
          rw [List.nil_append, btree_peek_prev_cons, if_neg (hB b (by simp))]
          rfl
  | cons a t ih =>
      rw [List.cons_append, btree_peek_prev_cons, if_pos (hA a (by simp))]
      have ht := ih (fun p hp => hA p (by simp [hp]))
      rw [ht]
      cases t with
      | nil => rfl
      | cons b u =>
          cases hq : (b :: u).getLast? with
          | none => exact absurd hq (by simp)
          | some q => rw [List.getLast?_cons_cons, hq]

theorem btree_peek_next_spec {A B : Bmap} {c : Nat}
    (hA : ∀ p ∈ A, p.1 ≤ c) (hB : ∀ p ∈ B, c < p.1) :
    btree_peek_next (A ++ B) c = B.head? := by
  induction A with
  | nil =>
      cases B with
      | nil => rfl
      | cons b t =>
          rw [List.nil_append, btree_peek_next_cons,
            if_neg (by have := hB b (by simp); omega)]
          rfl
  | cons a t ih =>
      rw [List.cons_append, btree_peek_next_cons, if_pos (hA a (by simp))]
      exact ih (fun p hp => hA p (by simp [hp]))

theorem btree_insert_append {A B : Bmap} {k v : Nat}
    (hA : ∀ p ∈ A, ¬ k < p.1) :
    btree_insert (A ++ B) k v = A ++ btree_insert B k v := by
  induction A with
  | nil => rfl
  | cons a t ih =>
      rw [List.cons_append, btree_insert_cons, if_neg (hA a (by simp)),
        ih (fun p hp => hA p (by simp [hp]))]
      rfl

theorem btree_insert_cons_of_lt {B : Bmap} {b : Nat × Nat} {k v : Nat}
    (h : k < b.1) : btree_insert (b :: B) k v = (k, v) :: b :: B := by
  rw [btree_insert_cons, if_pos h]

theorem btree_delete_append {A B : Bmap} {k : Nat}
    (hA : ∀ p ∈ A, p.1 ≠ k) :
    btree_delete (A ++ B) k = A ++ btree_delete B k := by
  induction A with
  | nil => rfl
  | cons a t ih =>
      rw [List.cons_append, btree_delete_cons_eq, if_neg (hA a (by simp)),
        ih (fun p hp => hA p (by simp [hp]))]
      rfl

theorem btree_delete_head {B : Bmap} {k v : Nat} :
    btree_delete ((k, v) :: B) k = B := by
  rw [btree_delete_cons_eq, if_pos rfl]

theorem btree_update_value_append (A B : Bmap) (k v : Nat) :
    btree_update_value (A ++ B) k v =
      btree_update_value A k v ++ btree_update_value B k v :=
  List.map_append _ A B

theorem btree_update_value_id {A : Bmap} {k v : Nat}
    (hA : ∀ p ∈ A, p.1 ≠ k) : btree_update_value A k v = A := by
  unfold btree_update_value
  rw [List.map_congr_left fun p hp => if_neg (hA p hp)]
  exact List.map_id A

theorem btree_update_value_cons {B : Bmap} {k c v : Nat} :
    btree_update_value ((k, c) :: B) k v = (k, v) :: btree_update_value B k v := by
  unfold btree_update_value
  rw [List.map_cons, if_pos rfl]

theorem btree_update_key_append (A B : Bmap) (kold knew : Nat) :
    btree_update_key (A ++ B) kold knew =
      btree_update_key A kold knew ++ btree_update_key B kold knew :=
  List.map_append _ A B

theorem btree_update_key_id {A : Bmap} {kold knew : Nat}
    (hA : ∀ p ∈ A, p.1 ≠ kold) : btree_update_key A kold knew = A := by
  unfold btree_update_key
  rw [List.map_congr_left fun p hp => if_neg (hA p hp)]
  exact List.map_id A

theorem btree_update_key_cons {B : Bmap} {kold c knew : Nat} :
    btree_update_key ((kold, c) :: B) kold knew =
      (knew, c) :: btree_update_key B kold knew := by
  unfold btree_update_key
  rw [List.map_cons, if_pos rfl]

theorem getLast?_append_cons {A : Bmap} {x : Nat × Nat} {B : Bmap}
    (hB : B ≠ []) : (A ++ x :: B).getLast? = B.getLast? := by
  rw [List.getLast?_append_of_ne_nil _ (by simp)]
  cases B with
  | nil => exact absurd rfl hB
  | cons b t => rw [List.getLast?_cons_cons]

theorem head_key_append_ne {A : Bmap} (hA : A ≠ []) (C C' : Bmap)
    (h : ((A ++ C).head?).map Prod.fst = some 0) :
    ((A ++ C').head?).map Prod.fst = some 0 := by
  cases A with
  | nil => exact absurd rfl hA
  | cons a t => simpa using h

theorem btree_peek_next_split {A B : Bmap} {x : Nat × Nat}
    (hA : ∀ p ∈ A, p.1 ≤ x.1) (hB : ∀ p ∈ B, x.1 < p.1) :
    btree_peek_next (A ++ x :: B) x.1 = B.head? := by
  rw [show A ++ x :: B = (A ++ [x]) ++ B from by simp]
  apply btree_peek_next_spec
  · intro p hp
    rcases List.mem_append.mp hp with hp | hp
    · exact hA p hp
    · have : p = x := by simpa using hp
      rw [this]
  · exact hB

/-- A failed btree_find means every key in the map is below the probe. -/
theorem btree_find_none {m : Bmap} {k : Nat} (h : btree_find m k = none) :
    ∀ p ∈ m, p.1 < k := by
  induction m with
  | nil => intro p hp; cases hp
  | cons a t ih =>
      rw [btree_find_cons] at h
      by_cases hk : k ≤ a.1
      · rw [if_pos hk] at h
        exact absurd h (by simp)
      · rw [if_neg hk] at h
        intro p hp
        rcases List.mem_cons.mp hp with rfl | hp
        · omega
        · exact ih h p hp

/-- Dropping the head of a non-singleton list keeps its last element. -/
theorem getLast?_cons_of_ne {x : Nat × Nat} {B : Bmap} (hB : B ≠ []) :
    (x :: B).getLast? = B.getLast? := getLast?_append_cons (A := []) hB

/-- Replacing the first entry after the prefix by one with the same key,
and the rest arbitrarily, keeps the head key. -/
theorem head_key_glue {A : Bmap} {x y : Nat × Nat} {C C' : Bmap} (hxy : y.1 = x.1)
    (h : ((A ++ x :: C).head?).map Prod.fst = some 0) :
    ((A ++ y :: C').head?).map Prod.fst = some 0 := by
  cases A with
  | nil =>
      simp only [List.nil_append, List.head?_cons, Option.map_some'] at h ⊢
      rw [hxy]
      exact h
  | cons a t => simpa using h

/-- The freshly initialized group map satisfies the structural invariant. -/
theorem bmap_new_inv {S : Nat} (h : 1 ≤ S) : bmapInv (bmap_new S) S := by
  have hm : bmap_new S = [(0, 0), (S, 2)] := by
    unfold bmap_new
    simp [btree_insert, Nat.not_lt.mpr (Nat.zero_le S)]
  rw [hm]
  refine ⟨?_, ?_, rfl, rfl⟩
  · simp [List.chain'_cons]
    omega
  · simp [List.chain'_cons]

/-- big_bmap_test reports whether the interval covering the queried block
carries BBMAP_INUSE, on any map satisfying the invariant. -/
theorem big_bmap_test_covering {m : Bmap} {S : Nat} (hinv : bmapInv m S)
    (k : Nat) : big_bmap_test m k = (coveringTag m k == 1) := by
  obtain ⟨hsort, htags, hhead, hlast⟩ := hinv
  unfold big_bmap_test coveringTag
  cases hfind : btree_find m k with
  | none =>
      have hall := btree_find_none hfind
      have hprev : btree_peek_prev m (k + 1) = m.getLast? := by
        have h := btree_peek_prev_spec (A := m) (B := []) (c := k + 1)
          (fun p hp => by have := hall p hp; omega)
          (fun p hp => absurd hp (by simp))
        simpa using h
      rw [hprev, hlast]
      rfl
  | some q =>
      obtain ⟨ck, cv⟩ := q
      obtain ⟨A, B, hm, hAlt, hkck⟩ := btree_find_split hfind
      have hBgt : ∀ p ∈ B, ck < p.1 := by
        rw [hm] at hsort
        exact chain'_lt_head (x := (ck, cv)) (List.chain'_append.mp hsort).2.1
      dsimp only
      by_cases hoc : k = ck
      · subst hoc
        rw [if_pos rfl]
        have hprev : btree_peek_prev m (k + 1) = some (k, cv) := by
          rw [hm, show A ++ (k, cv) :: B = (A ++ [(k, cv)]) ++ B from by simp]
          rw [btree_peek_prev_spec
            (fun p hp => by
              rcases List.mem_append.mp hp with hp | hp
              · have := hAlt p hp; omega
              · have hpx : p = (k, cv) := by simpa using hp
                rw [hpx]; exact Nat.lt_succ_self k)
            (fun p hp => by have := hBgt p hp; omega)]
          simp
        rw [hprev]
      · have hklt : k < ck := lt_of_le_of_ne hkck hoc
        rw [if_neg hoc]
        have hprevck : btree_peek_prev m ck = A.getLast? := by
          rw [hm]
          exact btree_peek_prev_spec (fun p hp => lt_trans (hAlt p hp) hklt)
            (fun p hp => by
              rcases List.mem_cons.mp hp with rfl | hp
              · exact lt_irrefl _
              · have := hBgt p hp; omega)
        have hprevk : btree_peek_prev m (k + 1) = A.getLast? := by
          rw [hm]
          exact btree_peek_prev_spec (fun p hp => by have := hAlt p hp; omega)
            (fun p hp => by
              rcases List.mem_cons.mp hp with rfl | hp
              · show ¬ ck < k + 1
                omega
              · have := hBgt p hp; omega)
        rw [hprevck, hprevk]
        cases A.getLast? with
        | none => rfl
        | some q2 => rfl

/-- update_bmap preserves the structural invariant for a set request that
stays inside a single existing interval and writes a non-BAD state. -/
theorem update_bmap_preserves_inv {m : Bmap} {S offset blen ns : Nat}
    (hinv : bmapInv m S) (hset : setWithinInterval m offset blen = true)
    (hns : ns ≤ 1) : bmapInv (update_bmap m offset blen ns) S := by
  obtain ⟨hsort, htags, hhead, hlast⟩ := hinv
  unfold setWithinInterval at hset
  rw [Bool.and_eq_true] at hset
  obtain ⟨hblen', hrest⟩ := hset
  have hblen : 0 < blen := of_decide_eq_true hblen'
  cases hfind : btree_find m offset with
  | none =>
      rw [hfind] at hrest
      simp at hrest
  | some q =>
    obtain ⟨ck, cv⟩ := q
    rw [hfind] at hrest
    dsimp only at hrest
    obtain ⟨A, B, hm, hAlt, hkck⟩ := btree_find_split hfind
    have hkle : offset ≤ ck := hkck
    have hsortS : (A ++ (ck, cv) :: B).Chain' (fun p q => p.1 < q.1) := hm ▸ hsort
    have htagsS : (A ++ (ck, cv) :: B).Chain' (fun p q => p.2 ≠ q.2) := hm ▸ htags
    have hheadS : ((A ++ (ck, cv) :: B).head?).map Prod.fst = some 0 := hm ▸ hhead
    have hlastS : (A ++ (ck, cv) :: B).getLast? = some (S, 2) := hm ▸ hlast
    obtain ⟨hsortA, hsortB, hlastAlt, hheadBgt⟩ := (chain'_append_cons A _ B).mp hsortS
    obtain ⟨htagsA, htagsB, hlastAne, hheadBne⟩ := (chain'_append_cons A _ B).mp htagsS
    have hBgt : ∀ p ∈ B, ck < p.1 :=
      chain'_lt_head (x := (ck, cv)) (List.chain'_append.mp hsortS).2.1
    by_cases hoc : offset = ck
    · subst hoc
      have hAltLast : ∀ a ∈ A.getLast?, a.1 < offset := fun a ha => hlastAlt a ha
      have hAneLast : ∀ a ∈ A.getLast?, a.2 ≠ cv := fun a ha => hlastAne a ha
      have hprev : btree_peek_prev m offset = A.getLast? := by
        rw [hm]
        exact btree_peek_prev_spec hAlt
          (fun p hp => by
            rcases List.mem_cons.mp hp with rfl | hp
            · exact lt_irrefl _
            · have := hBgt p hp; omega)
      have hnext : btree_peek_next m offset = B.head? := by
        rw [hm]
        exact btree_peek_next_split (x := (offset, cv))
          (fun p hp => le_of_lt (hAlt p hp)) hBgt
      by_cases hcveq : cv = ns
      · have hres : update_bmap m offset blen ns = m := by
          unfold update_bmap
          rw [hfind]
          dsimp only
          rw [if_pos rfl, if_pos hcveq]
        rw [hres]
        exact ⟨hsort, htags, hhead, hlast⟩
      · rw [if_pos rfl, hnext] at hrest
        cases B with
        | nil => simp at hrest
        | cons nb B2 =>
          obtain ⟨nk, nv⟩ := nb
          simp only [List.head?_cons, decide_eq_true_eq] at hrest
          have hnext' : btree_peek_next m offset = some (nk, nv) := by
            rw [hnext]
            rfl
          have hcvnv : cv ≠ nv := hheadBne (nk, nv) rfl
          have hofflt : offset < nk := hheadBgt (nk, nv) rfl
          have hsortB2 : B2.Chain' (fun p q => p.1 < q.1) := (List.chain'_cons'.mp hsortB).2
          have htagsB2 : B2.Chain' (fun p q => p.2 ≠ q.2) := (List.chain'_cons'.mp htagsB).2
          have hnkB2 : ∀ b ∈ B2.head?, nk < b.1 :=
            fun b hb => (List.chain'_cons'.mp hsortB).1 b hb
          have hnvB2 : ∀ b ∈ B2.head?, nv ≠ b.2 :=
            fun b hb => (List.chain'_cons'.mp htagsB).1 b hb
          have hlastB : ((nk, nv) :: B2).getLast? = some (S, 2) := by
            have h := hlastS
            rw [getLast?_append_cons (by simp)] at h
            exact h
          have hAvl : btree_update_value A offset ns = A :=
            btree_update_value_id (fun p hp => by have := hAlt p hp; omega)
          have hBvl : btree_update_value ((nk, nv) :: B2) offset ns = (nk, nv) :: B2 :=
            btree_update_value_id (fun p hp => by have := hBgt p hp; omega)
          by_cases hnklt : offset + blen < nk
          · by_cases hpm : some ns = (A.getLast?).map Prod.snd
            · have hAne2 : A ≠ [] := by
                intro h
                rw [h] at hpm
                simp at hpm
              have hAupd : btree_update_key A offset (offset + blen) = A :=
                btree_update_key_id (fun p hp => by have := hAlt p hp; omega)
              have hBupd : btree_update_key ((nk, nv) :: B2) offset (offset + blen) =
                  (nk, nv) :: B2 :=
                btree_update_key_id (fun p hp => by have := hBgt p hp; omega)
              have hres : update_bmap m offset blen ns =
                  A ++ (offset + blen, cv) :: (nk, nv) :: B2 := by
                unfold update_bmap
                rw [hfind]
                dsimp only
                rw [if_pos rfl, if_neg hcveq, hnext']
                dsimp only
                rw [hprev, if_pos hnklt, if_pos hpm, hm, btree_update_key_append,
                  hAupd, btree_update_key_cons, hBupd]
              rw [hres]
              refine ⟨?_, ?_, ?_, ?_⟩
              · rw [chain'_append_cons]
                refine ⟨hsortA, hsortB, ?_, ?_⟩
                · intro a ha
                  exact lt_of_lt_of_le (hAltLast a ha) (Nat.le_add_right offset blen)
                · intro b hb
                  have hb0 : (nk, nv) = b := by simpa using hb
                  rw [← hb0]
                  exact hnklt
              · rw [chain'_append_cons]
                refine ⟨htagsA, htagsB, ?_, ?_⟩
                · intro a ha
                  exact hAneLast a ha
                · intro b hb
                  have hb0 : (nk, nv) = b := by simpa using hb
                  rw [← hb0]
                  exact hcvnv
              · exact head_key_append_ne hAne2 _ _ hheadS
              · rw [getLast?_append_cons (by simp)]
                exact hlastB
            · have hres : update_bmap m offset blen ns =
                  A ++ (offset, ns) :: (offset + blen, cv) :: (nk, nv) :: B2 := by
                unfold update_bmap
                rw [hfind]
                dsimp only
                rw [if_pos rfl, if_neg hcveq, hnext']
                dsimp only
                rw [hprev, if_pos hnklt, if_neg hpm, hm, btree_update_value_append,
                  hAvl, btree_update_value_cons, hBvl,
                  show A ++ (offset, ns) :: (nk, nv) :: B2 =
                    (A ++ [(offset, ns)]) ++ (nk, nv) :: B2 from by simp,
                  btree_insert_append (fun p hp => by
                    rcases List.mem_append.mp hp with hp | hp
                    · have := hAlt p hp; omega
                    · have hpx : p = (offset, ns) := by simpa using hp
                      rw [hpx]
                      show ¬ offset + blen < offset
                      omega),
                  btree_insert_cons_of_lt hnklt]
                simp
              rw [hres]
              have hAneNs : ∀ a ∈ A.getLast?, a.2 ≠ ns := by
                intro a ha h
                apply hpm
                rw [Option.mem_def] at ha
                rw [ha, Option.map_some', ← h]
              refine ⟨?_, ?_, ?_, ?_⟩
              · rw [chain'_append_cons]
                refine ⟨hsortA, ?_, ?_, ?_⟩
                · rw [List.chain'_cons]
                  exact ⟨hnklt, hsortB⟩
                · intro a ha
                  exact hAltLast a ha
                · intro b hb
                  have hb0 : (offset + blen, cv) = b := by simpa using hb
                  rw [← hb0]
                  show offset < offset + blen
                  omega
              · rw [chain'_append_cons]
                refine ⟨htagsA, ?_, ?_, ?_⟩
                · rw [List.chain'_cons]
                  exact ⟨hcvnv, htagsB⟩
                · intro a ha
                  exact hAneNs a ha
                · intro b hb
                  have hb0 : (offset + blen, cv) = b := by simpa using hb
                  rw [← hb0]
                  show ns ≠ cv
                  exact fun h => hcveq h.symm
              · exact head_key_glue (x := (offset, cv)) rfl hheadS
              · rw [getLast?_append_cons (by simp), List.getLast?_cons_cons]
                exact hlastB
          · have hnkeq : nk = offset + blen := by omega
            by_cases hnsnv : ns = nv
            · have hB2ne : B2 ≠ [] := by
                intro h
                rw [h] at hlastB
                simp at hlastB
                omega
              have hlastB2 : B2.getLast? = some (S, 2) := by
                have h := hlastB
                rw [getLast?_cons_of_ne hB2ne] at h
                exact h
              by_cases hpm : some ns = (A.getLast?).map Prod.snd
              · have hAne2 : A ≠ [] := by
                  intro h
                  rw [h] at hpm
                  simp at hpm
                have hA2ns : ∀ a ∈ A.getLast?, a.2 = ns := by
                  intro a ha
                  have h := hpm
                  rw [Option.mem_def] at ha
                  rw [ha, Option.map_some'] at h
                  injection h with h
                  exact h.symm
                have hres : update_bmap m offset blen ns = A ++ B2 := by
                  unfold update_bmap
                  rw [hfind]
                  dsimp only
                  rw [if_pos rfl, if_neg hcveq, hnext']
                  dsimp only
                  rw [hprev, if_neg (by omega), if_pos hnsnv, if_pos hpm, hm,
                    btree_delete_append (fun p hp => by have := hAlt p hp; omega),
                    btree_delete_head, ← hnkeq,
                    btree_delete_append (fun p hp => by
                      have h1 := hAlt p hp
                      have h2 := hofflt
                      omega),
                    btree_delete_head]
                rw [hres]
                refine ⟨?_, ?_, ?_, ?_⟩
                · rw [List.chain'_append]
                  refine ⟨hsortA, hsortB2, ?_⟩
                  intro a ha b hb
                  have h1 : a.1 < offset := hAltLast a ha
                  have h2 : nk < b.1 := hnkB2 b hb
                  show a.1 < b.1
                  omega
                · rw [List.chain'_append]
                  refine ⟨htagsA, htagsB2, ?_⟩
                  intro a ha b hb
                  have h1 : a.2 = ns := hA2ns a ha
                  have h2 : nv ≠ b.2 := hnvB2 b hb
                  show a.2 ≠ b.2
                  omega
                · exact head_key_append_ne hAne2 _ _ hheadS
                · rw [List.getLast?_append_of_ne_nil _ hB2ne]
                  exact hlastB2
              · have hAneNs : ∀ a ∈ A.getLast?, a.2 ≠ ns := by
                  intro a ha h
                  apply hpm
                  rw [Option.mem_def] at ha
                  rw [ha, Option.map_some', ← h]
                have hres : update_bmap m offset blen ns = A ++ (offset, ns) :: B2 := by
                  unfold update_bmap
                  rw [hfind]
                  dsimp only
                  rw [if_pos rfl, if_neg hcveq, hnext']
                  dsimp only
                  rw [hprev, if_neg (by omega), if_pos hnsnv, if_neg hpm, hm,
                    btree_update_value_append, hAvl, btree_update_value_cons, hBvl,
                    show A ++ (offset, ns) :: (nk, nv) :: B2 =
                      (A ++ [(offset, ns)]) ++ (nk, nv) :: B2 from by simp,
                    ← hnkeq,
                    btree_delete_append (fun p hp => by
                      rcases List.mem_append.mp hp with hp | hp
                      · have h1 := hAlt p hp
                        have h2 := hofflt
                        omega
                      · have hpx : p = (offset, ns) := by simpa using hp
                        rw [hpx]
                        show offset ≠ nk
                        omega),
                    btree_delete_head]
                  simp
                rw [hres]
                refine ⟨?_, ?_, ?_, ?_⟩
                · rw [chain'_append_cons]
                  refine ⟨hsortA, hsortB2, ?_, ?_⟩
                  · intro a ha
                    exact hAltLast a ha
                  · intro b hb
                    have h2 : nk < b.1 := hnkB2 b hb
                    show offset < b.1
                    omega
                · rw [chain'_append_cons]
                  refine ⟨htagsA, htagsB2, ?_, ?_⟩
                  · intro a ha
                    exact hAneNs a ha
                  · intro b hb
                    have h2 : nv ≠ b.2 := hnvB2 b hb
                    show ns ≠ b.2
                    omega
                · exact head_key_glue (x := (offset, cv)) rfl hheadS
                · rw [getLast?_append_cons hB2ne]
                  exact hlastB2
            · by_cases hpm : some ns = (A.getLast?).map Prod.snd
              · have hAne2 : A ≠ [] := by
                  intro h
                  rw [h] at hpm
                  simp at hpm
                have hA2ns : ∀ a ∈ A.getLast?, a.2 = ns := by
                  intro a ha
                  have h := hpm
                  rw [Option.mem_def] at ha
                  rw [ha, Option.map_some'] at h
                  injection h with h
                  exact h.symm
                have hres : update_bmap m offset blen ns = A ++ (nk, nv) :: B2 := by
                  unfold update_bmap
                  rw [hfind]
                  dsimp only
                  rw [if_pos rfl, if_neg hcveq, hnext']
                  dsimp only
                  rw [hprev, if_neg (by omega), if_neg hnsnv, if_pos hpm, hm,
                    btree_delete_append (fun p hp => by have := hAlt p hp; omega),
                    btree_delete_head]
                rw [hres]
                refine ⟨?_, ?_, ?_, ?_⟩
                · rw [chain'_append_cons]
                  refine ⟨hsortA, hsortB2, ?_, ?_⟩
                  · intro a ha
                    have h1 : a.1 < offset := hAltLast a ha
                    show a.1 < nk
                    omega
                  · intro b hb
                    exact hnkB2 b hb
                · rw [chain'_append_cons]
                  refine ⟨htagsA, htagsB2, ?_, ?_⟩
                  · intro a ha
                    have h1 : a.2 = ns := hA2ns a ha
                    show a.2 ≠ nv
                    omega
                  · intro b hb
                    exact hnvB2 b hb
                · exact head_key_append_ne hAne2 _ _ hheadS
                · rw [List.getLast?_append_of_ne_nil _ (by simp)]
                  exact hlastB
              · have hAneNs : ∀ a ∈ A.getLast?, a.2 ≠ ns := by
                  intro a ha h
                  apply hpm
                  rw [Option.mem_def] at ha
                  rw [ha, Option.map_some', ← h]
                have hres : update_bmap m offset blen ns =
                    A ++ (offset, ns) :: (nk, nv) :: B2 := by
                  unfold update_bmap
                  rw [hfind]
                  dsimp only
                  rw [if_pos rfl, if_neg hcveq, hnext']
                  dsimp only
                  rw [hprev, if_neg (by omega), if_neg hnsnv, if_neg hpm, hm,
                    btree_update_value_append, hAvl, btree_update_value_cons, hBvl]
                rw [hres]
                refine ⟨?_, ?_, ?_, ?_⟩
                · rw [chain'_append_cons]
                  refine ⟨hsortA, hsortB, ?_, ?_⟩
                  · intro a ha
                    exact hAltLast a ha
                  · intro b hb
                    have hb0 : (nk, nv) = b := by simpa using hb
                    rw [← hb0]
                    show offset < nk
                    omega
                · rw [chain'_append_cons]
                  refine ⟨htagsA, htagsB, ?_, ?_⟩
                  · intro a ha
                    exact hAneNs a ha
                  · intro b hb
                    have hb0 : (nk, nv) = b := by simpa using hb
                    rw [← hb0]
                    show ns ≠ nv
                    exact hnsnv
                · exact head_key_glue (x := (offset, cv)) rfl hheadS
                · rw [getLast?_append_cons (by simp)]
                  exact hlastB
    · have hoclt : offset < ck := lt_of_le_of_ne hkle hoc
      rw [if_neg hoc] at hrest
      have hEndck : offset + blen ≤ ck := of_decide_eq_true hrest
      have hprevc : btree_peek_prev m ck = A.getLast? := by
        rw [hm]
        exact btree_peek_prev_spec (fun p hp => lt_trans (hAlt p hp) hoclt)
          (fun p hp => by
            rcases List.mem_cons.mp hp with rfl | hp
            · exact lt_irrefl _
            · have := hBgt p hp; omega)
      cases hAL : A.getLast? with
      | none =>
          have hres : update_bmap m offset blen ns = m := by
            unfold update_bmap
            rw [hfind]
            dsimp only
            rw [if_neg hoc, hprevc, hAL]
          rw [hres]
          exact ⟨hsort, htags, hhead, hlast⟩
      | some pp =>
          obtain ⟨pk, pv⟩ := pp
          have hpkmem : (pk, pv) ∈ A.getLast? := by rw [hAL]; rfl
          have hAne2 : A ≠ [] := by
            intro h
            rw [h] at hAL
            simp at hAL
          obtain ⟨A0, hA0⟩ := List.getLast?_eq_some_iff.mp hAL
          have hpk_off : pk < offset := hAlt (pk, pv) (by rw [hA0]; simp)
          have hpv_cv : pv ≠ cv := hlastAne (pk, pv) hpkmem
          have haEq : ∀ a ∈ A.getLast?, a = (pk, pv) := by
            intro a ha
            rw [Option.mem_def, hAL] at ha
            injection ha with ha
            exact ha.symm
          have hsortCB : ((ck, cv) :: B).Chain' (fun p q => p.1 < q.1) :=
            (List.chain'_append.mp hsortS).2.1
          have htagsCB : ((ck, cv) :: B).Chain' (fun p q => p.2 ≠ q.2) :=
            (List.chain'_append.mp htagsS).2.1
          have hheadBgt' : ∀ b ∈ B.head?, ck < b.1 := fun b hb => hheadBgt b hb
          have hheadBne' : ∀ b ∈ B.head?, cv ≠ b.2 := fun b hb => hheadBne b hb
          have hlastCB : ((ck, cv) :: B).getLast? = some (S, 2) := by
            have h := hlastS
            rw [List.getLast?_append_of_ne_nil _ (by simp)] at h
            exact h
          by_cases hpvns : pv = ns
          · have hres : update_bmap m offset blen ns = m := by
              unfold update_bmap
              rw [hfind]
              dsimp only
              rw [if_neg hoc, hprevc, hAL]
              dsimp only
              rw [if_pos hpvns]
            rw [hres]
            exact ⟨hsort, htags, hhead, hlast⟩
          · by_cases hek : offset + blen = ck
            · by_cases hnscv : ns = cv
              · have hBne : B ≠ [] := by
                  intro h
                  rw [h] at hlastCB
                  simp at hlastCB
                  omega
                have hlastB0 : B.getLast? = some (S, 2) := by
                  have h := hlastCB
                  rw [getLast?_cons_of_ne hBne] at h
                  exact h
                have hres : update_bmap m offset blen ns = A ++ (offset, cv) :: B := by
                  unfold update_bmap
                  rw [hfind]
                  dsimp only
                  rw [if_neg hoc, hprevc, hAL]
                  dsimp only
                  rw [if_neg hpvns, if_pos hek, if_pos hnscv, hek, hm,
                    btree_update_key_append,
                    btree_update_key_id (fun p hp => by
                      have h1 := hAlt p hp
                      have h2 := hoclt
                      omega),
                    btree_update_key_cons,
                    btree_update_key_id (fun p hp => by have := hBgt p hp; omega)]
                rw [hres]
                refine ⟨?_, ?_, ?_, ?_⟩
                · rw [chain'_append_cons]
                  refine ⟨hsortA, hsortB, ?_, ?_⟩
                  · intro a ha
                    have h := haEq a ha
                    rw [h]
                    show pk < offset
                    exact hpk_off
                  · intro b hb
                    have h2 : ck < b.1 := hheadBgt' b hb
                    show offset < b.1
                    omega
                · rw [chain'_append_cons]
                  refine ⟨htagsA, htagsB, ?_, ?_⟩
                  · intro a ha
                    have h := haEq a ha
                    rw [h]
                    show pv ≠ cv
                    exact hpv_cv
                  · intro b hb
                    exact hheadBne' b hb
                · exact head_key_append_ne hAne2 _ _ hheadS
                · rw [getLast?_append_cons hBne]
                  exact hlastB0
              · have hres : update_bmap m offset blen ns =
                    A ++ (offset, ns) :: (ck, cv) :: B := by
                  unfold update_bmap
                  rw [hfind]
                  dsimp only
                  rw [if_neg hoc, hprevc, hAL]
                  dsimp only
                  rw [if_neg hpvns, if_pos hek, if_neg hnscv, hm,
                    btree_insert_append (fun p hp => by have := hAlt p hp; omega),
                    btree_insert_cons_of_lt hoclt]
                rw [hres]
                refine ⟨?_, ?_, ?_, ?_⟩
                · rw [chain'_append_cons]
                  refine ⟨hsortA, hsortCB, ?_, ?_⟩
                  · intro a ha
                    have h := haEq a ha
                    rw [h]
                    show pk < offset
                    exact hpk_off
                  · intro b hb
                    have hb0 : (ck, cv) = b := by simpa using hb
                    rw [← hb0]
                    show offset < ck
                    exact hoclt
                · rw [chain'_append_cons]
                  refine ⟨htagsA, htagsCB, ?_, ?_⟩
                  · intro a ha
                    have h := haEq a ha
                    rw [h]
                    show pv ≠ ns
                    exact hpvns
                  · intro b hb
                    have hb0 : (ck, cv) = b := by simpa using hb
                    rw [← hb0]
                    show ns ≠ cv
                    exact hnscv
                · exact head_key_append_ne hAne2 _ _ hheadS
                · rw [getLast?_append_cons (by simp)]
                  exact hlastCB
            · have heklt : offset + blen < ck := lt_of_le_of_ne hEndck hek
              have hres : update_bmap m offset blen ns =
                  A ++ (offset, ns) :: (offset + blen, pv) :: (ck, cv) :: B := by
                unfold update_bmap
                rw [hfind]
                dsimp only
                rw [if_neg hoc, hprevc, hAL]
                dsimp only
                rw [if_neg hpvns, if_neg hek, hm,
                  btree_insert_append (fun p hp => by have := hAlt p hp; omega),
                  btree_insert_cons_of_lt hoclt,
                  show A ++ (offset, ns) :: (ck, cv) :: B =
                    (A ++ [(offset, ns)]) ++ (ck, cv) :: B from by simp,
                  btree_insert_append (fun p hp => by
                    rcases List.mem_append.mp hp with hp | hp
                    · have := hAlt p hp; omega
                    · have hpx : p = (offset, ns) := by simpa using hp
                      rw [hpx]
                      show ¬ offset + blen < offset
                      omega),
                  btree_insert_cons_of_lt heklt]
                simp
              rw [hres]
              refine ⟨?_, ?_, ?_, ?_⟩
              · rw [chain'_append_cons]
                refine ⟨hsortA, ?_, ?_, ?_⟩
                · rw [List.chain'_cons]
                  exact ⟨heklt, hsortCB⟩
                · intro a ha
                  have h := haEq a ha
                  rw [h]
                  show pk < offset
                  exact hpk_off
                · intro b hb
                  have hb0 : (offset + blen, pv) = b := by simpa using hb
                  rw [← hb0]
                  show offset < offset + blen
                  omega
              · rw [chain'_append_cons]
                refine ⟨htagsA, ?_, ?_, ?_⟩
                · rw [List.chain'_cons]
                  refine ⟨?_, htagsCB⟩
                  show pv ≠ cv
                  exact hpv_cv
                · intro a ha
                  have h := haEq a ha
                  rw [h]
                  show pv ≠ ns
                  exact hpvns
                · intro b hb
                  have hb0 : (offset + blen, pv) = b := by simpa using hb
                  rw [← hb0]
                  show ns ≠ pv
                  exact fun h => hpvns h.symm
              · exact head_key_append_ne hAne2 _ _ hheadS
              · rw [getLast?_append_cons (by simp), List.getLast?_cons_cons]
                exact hlastCB

/-- C7 counterexample to the unrestricted reading: a set request crossing
the out-of-range sentinel (offset 90, length 20 against bound 100) leaves a
key 110 strictly beyond the sentinel key 100, so the sentinel is no longer
the unique key at or above ag_size * multiplier; such requests are exactly
the ones setWithinInterval rejects. -/
theorem bmap_set_crossing_breaks_sentinel :
    big_bmap_set (bmap_new 100) 90 20 1 = [(0, 0), (90, 1), (100, 2), (110, 0)] ∧
    (big_bmap_set (bmap_new 100) 90 20 1).getLast? ≠ some (100, 2) ∧
    setWithinInterval (bmap_new 100) 90 20 = false := by decide

/-- C7: the per-group range-coded bitmap keeps its structural invariant -
strictly ascending keys, no two adjacent intervals with the same tag, key 0
present first and the (ag_size * multiplier, BBMAP_BAD) sentinel last, hence
the unique key at or above the bound - after initialization and after any
big_bmap_set confined to a single interval with a non-BAD state; and
big_bmap_test returns whether the interval covering the queried block is
BBMAP_INUSE. -/
theorem bmap_invariant_and_test {m : Bmap} {S offset blen ns : Nat} (k : Nat)
    (hS : 1 ≤ S) (hinv : bmapInv m S)
    (hset : setWithinInterval m offset blen = true) (hns : ns ≤ 1) :
    bmapInv (bmap_new S) S ∧
    bmapInv (big_bmap_set m offset blen ns) S ∧
    big_bmap_test m k = (coveringTag m k == 1) :=
  ⟨bmap_new_inv hS, update_bmap_preserves_inv hinv hset hns,
    big_bmap_test_covering hinv k⟩

/-- Witness for the C7 theorem at a concrete map, request and probe. -/
theorem bmap_invariant_and_test_witness :
    bmapInv (bmap_new 100) 100 ∧
    bmapInv (big_bmap_set (bmap_new 100) 10 5 1) 100 ∧
    big_bmap_test (bmap_new 100) 7 = (coveringTag (bmap_new 100) 7 == 1) :=
  @bmap_invariant_and_test (bmap_new 100) 100 10 5 1 7 (by decide)
    (bmap_new_inv (by decide)) (by decide) (by decide)
